import Mathlib

/-!
# `fast-import.c`: the pack writer

A shallow embedding of `src/fast-import.c` and proofs about it.

* Bytes are natural numbers below 256, buffers are lists of bytes.
* A descriptor is a `File`: contents, offset, and the outcomes the operating system will
  choose for the coming `read`/`write` calls (failure, or a cap on the bytes transferred).
* `die` is an `Except` error. `xmalloc(datlen)` in `main` succeeds or dies as the
  environment decides; the fixed-size and compression buffers are taken to be allocated.
* An `unsigned long` object is its bytes in memory, in host order, 4 or 8 of them. The
  program reads `datlen` and writes `version`, `zero` and `cnt` through the first four bytes
  of such an object; `datlen` is not initialised, so its other bytes are what the
  environment left there. `object_count` and sizes are natural numbers: the program only
  increments the one and shifts the others down, and `htonl` keeps the low 32 bits.
* The result of `yread`/`ywrite` is compared with the expected length as integers. The
  source converts the result to unsigned for some of these comparisons, which differs only
  when a failed call (-1) meets an expected length of `SIZE_MAX`. The one place where the
  conversion decides the outcome, `size_t n = xread(...)`, is modelled with `size_t_of`.
-/

namespace FastImport

/-! ## Object types -/

/-- Modelled from the spec: `OBJ_COMMIT` of `object.h` (absent from `src/`), the lowest
object-kind value of the pack format. -/
def OBJ_COMMIT : Int := 1

/-- Modelled from the spec: `OBJ_BLOB` of `object.h` (absent from `src/`), the "blob" kind. -/
def OBJ_BLOB : Int := 3

/-- Modelled from the spec: `OBJ_DELTA` of `object.h` (absent from `src/`), the "delta" kind
and the highest object-kind value of the pack format. -/
def OBJ_DELTA : Int := 7

/-- How a call can end other than by returning. -/
inductive Fault where
  /-- The call `die("bad type %d", type)`. -/
  | bad_type (type : Int) : Fault
  /-- Any other `die`, with the fixed part of its message. -/
  | die (msg : String) : Fault
  /-- Undefined behaviour: `SHA1_Update` told to read `n` bytes out of the 128 KiB `buf`. -/
  | overrun (n : Nat) : Fault
  deriving DecidableEq, Repr

/-! ## `encode_header` -/

/-- The `while (size)` loop of `encode_header`: `c` is the pending byte, `n` the count so far.
Returns the bytes stored through `hdr` (in order) and the final `n`. -/
def encode_header_loop (c size n : Nat) : List Nat × Nat :=
  if size ≠ 0 then
    let r := encode_header_loop (size &&& 0x7f) (size >>> 7) (n + 1)
    ((c ||| 0x80) % 256 :: r.1, r.2)
  else
    ([c], n)
termination_by size
decreasing_by
  simp only [Nat.shiftRight_eq_div_pow]
  exact Nat.div_lt_self (Nat.pos_of_ne_zero ‹_›) (by norm_num)

/-- The function `encode_header(type, size, hdr)`: the returned count and the bytes written
to `hdr`; `type` is the `enum object_type` value, `size` an `unsigned long`. -/
def encode_header (type : Int) (size : Nat) : Except Fault (Nat × List Nat) :=
  if type < OBJ_COMMIT ∨ type > OBJ_DELTA then
    Except.error (Fault.bad_type type)
  else
    let c := ((type.toNat <<< 4) ||| (size &&& 15)) % 256
    let r := encode_header_loop c (size >>> 4) 1
    Except.ok (r.2, r.1)

/-- Size part of the pack-format header decoder: every further byte contributes its low seven
bits at the next shift, until a byte with the top bit clear. Returns the size and the number
of bytes consumed. -/
def pack_decode_size : List Nat → Nat → Nat → Nat → Option (Nat × Nat)
  | [], _, _, _ => none
  | b :: rest, shift, size, used =>
    if b &&& 0x80 = 0 then some (size + ((b &&& 0x7f) <<< shift), used + 1)
    else pack_decode_size rest (shift + 7) (size + ((b &&& 0x7f) <<< shift)) (used + 1)

/-- The pack-format header decoder: type from bits 4-6 of the first byte, size from its low
four bits plus the septets of the continuation bytes. Returns type, size and bytes consumed. -/
def pack_decode_header : List Nat → Option (Nat × Nat × Nat)
  | [] => none
  | b :: rest =>
    if b &&& 0x80 = 0 then some ((b >>> 4) &&& 7, b &&& 15, 1)
    else (pack_decode_size rest 4 (b &&& 15) 1).map fun r => ((b >>> 4) &&& 7, r.1, r.2)

/-! ## Descriptors, `xread`/`xwrite`, `yread`/`ywrite` -/

/-- What the operating system does with one `read` or `write` call. -/
inductive SysEvent where
  /-- The call fails and the wrapper returns -1. -/
  | fail : SysEvent
  /-- The call transfers at most `k + 1` bytes. -/
  | short (k : Nat) : SysEvent
  deriving DecidableEq, Repr

/-- An open descriptor: the file's bytes, the offset, and the outcomes of the coming calls
(when `plan` is used up every call transfers all it is asked to). -/
structure File where
  data : List Nat
  pos : Nat
  plan : List SysEvent
  deriving DecidableEq, Repr

/-- The file contents after `bs` is written at offset `pos` (a gap past the end reads 0). -/
def write_at (data : List Nat) (pos : Nat) (bs : List Nat) : List Nat :=
  data.take pos ++ List.replicate (pos - data.length) 0 ++ bs ++ data.drop (pos + bs.length)

/-- Modelled from the spec: `xread` of the git wrappers (absent from `src/`), a `read` that
returns the count read, 0 at end of file, or -1. Returns the count, the bytes stored
at the start of the buffer, and the descriptor. -/
def xread (f : File) (length : Nat) : Int × List Nat × File :=
  match f.plan with
  | SysEvent.fail :: plan => (-1, [], { f with plan := plan })
  | SysEvent.short k :: plan =>
    let bs := (f.data.drop f.pos).take (min length (k + 1))
    (bs.length, bs, { f with pos := f.pos + bs.length, plan := plan })
  | [] =>
    let bs := (f.data.drop f.pos).take length
    (bs.length, bs, { f with pos := f.pos + bs.length })

/-- Modelled from the spec: `xwrite` of the git wrappers (absent from `src/`), a `write` that
returns the count written or -1. -/
def xwrite (f : File) (buffer : List Nat) (length : Nat) : Int × File :=
  match f.plan with
  | SysEvent.fail :: plan => (-1, { f with plan := plan })
  | SysEvent.short k :: plan =>
    let bs := buffer.take (min length (k + 1))
    (bs.length, { data := write_at f.data f.pos bs, pos := f.pos + bs.length, plan := plan })
  | [] =>
    let bs := buffer.take length
    (bs.length, { f with data := write_at f.data f.pos bs, pos := f.pos + bs.length })

/-- The loop of `yread`; `ret` is never negative, `buffer` holds the `ret` bytes read so far. -/
def yread_loop (f : File) (length ret : Nat) (buffer : List Nat) : Int × List Nat × File :=
  if ret < length then
    let r := xread f (length - ret)
    if r.1 < 0 then (r.1, buffer, r.2.2)
    else if r.1 = 0 then (ret, buffer, r.2.2)
    else yread_loop r.2.2 length (ret + r.1.toNat) (buffer ++ r.2.1)
  else (ret, buffer, f)
termination_by length - ret
decreasing_by
  rename_i h1 h2
  have h3 : (xread f (length - ret)).1 = r.1 := rfl
  omega

/-- The function `yread(fd, buffer, length)`: the return value, the bytes stored in `buffer`,
the descriptor. -/
def yread (f : File) (length : Nat) : Int × List Nat × File :=
  yread_loop f length 0 []

/-- The loop of `ywrite`; `ret` is never negative. -/
def ywrite_loop (f : File) (buffer : List Nat) (length ret : Nat) : Int × File :=
  if ret < length then
    let r := xwrite f (buffer.drop ret) (length - ret)
    if r.1 < 0 then (r.1, r.2)
    else if r.1 = 0 then (ret, r.2)
    else ywrite_loop r.2 buffer length (ret + r.1.toNat)
  else (ret, f)
termination_by length - ret
decreasing_by
  rename_i h1 h2
  have h3 : (xwrite f (buffer.drop ret) (length - ret)).1 = r.1 := rfl
  omega

/-- The function `ywrite(fd, buffer, length)`: the return value and the descriptor. -/
def ywrite (f : File) (buffer : List Nat) (length : Nat) : Int × File :=
  ywrite_loop f buffer length 0

/-! ## The libraries the program links against -/

/-- Byte order of the host. -/
inductive Endian where
  | little : Endian
  | big : Endian
  deriving DecidableEq, Repr

/-- The library functions and the platform the program is compiled for and run on: SHA-1
(20-byte digests), `diff_delta` (`none` is the NULL return), zlib's `deflate` of a whole
payload at `zlib_compression_level`, the width of `size_t`, the host byte order, the size of
`unsigned long` (4 or 8 bytes), the bytes found in the uninitialised `datlen` in the pass of
the loop of `main` that follows `k` imported blobs, and whether `malloc` of a size succeeds. -/
structure Env where
  SHA1 : List Nat → List Nat
  sha1_length : ∀ m, (SHA1 m).length = 20
  diff_delta : List Nat → List Nat → Option (List Nat)
  deflate : List Nat → List Nat
  size_bits : Nat
  size_bits_ge : 32 ≤ size_bits
  endian : Endian
  long_bytes : Nat
  long_bytes_eq : long_bytes = 4 ∨ long_bytes = 8
  indeterminate : Nat → List Nat
  xmalloc_ok : Nat → Bool

/-- Modelled from the spec: `SHA1_Init` (OpenSSL, absent from `src/`); the context holds the
bytes fed so far. -/
def SHA1_Init : List Nat := []

/-- Modelled from the spec: `SHA1_Update(&c, data, len)` feeds the first `len` bytes of
`data` into the accumulator. -/
def SHA1_Update (c data : List Nat) (len : Nat) : List Nat := c ++ data.take len

/-- Modelled from the spec: `SHA1_Final(sha1, &c)` outputs the 20-byte digest of all that
was fed. -/
def SHA1_Final (E : Env) (c : List Nat) : List Nat := E.SHA1 c

/-- The bytes in memory of an `unsigned long` object that holds `v`. -/
def ulong_store (E : Env) (v : Nat) : List Nat :=
  match E.endian with
  | Endian.little => (List.range E.long_bytes).map fun i => v / 256 ^ i % 256
  | Endian.big => ((List.range E.long_bytes).map fun i => v / 256 ^ i % 256).reverse

/-- The value of an `unsigned long` object whose bytes in memory are `bs`. -/
def ulong_load (E : Env) (bs : List Nat) : Nat :=
  match E.endian with
  | Endian.little => ((List.range E.long_bytes).map fun i => bs.getD i 0 * 256 ^ i).sum
  | Endian.big =>
    ((List.range E.long_bytes).map fun i => bs.getD i 0 * 256 ^ (E.long_bytes - 1 - i)).sum

/-- Modelled from the spec: `htonl` of the C library (absent from `src/`), a function on
32-bit values: the argument is converted to 32 bits, and on a little-endian host its four
bytes are reversed. -/
def htonl (E : Env) (x : Nat) : Nat :=
  match E.endian with
  | Endian.big => x % 2 ^ 32
  | Endian.little =>
    x % 256 * 2 ^ 24 + x / 2 ^ 8 % 256 * 2 ^ 16 + x / 2 ^ 16 % 256 * 2 ^ 8 + x / 2 ^ 24 % 256

/-- The 4-byte big-endian encoding of the low 32 bits of `x`. -/
def be32 (x : Nat) : List Nat :=
  [x / 2 ^ 24 % 256, x / 2 ^ 16 % 256, x / 2 ^ 8 % 256, x % 256]

/-- The value of a 4-byte object in host byte order. -/
def host_u32 : Endian → List Nat → Nat
  | Endian.little, bs => bs.getD 0 0 + 2 ^ 8 * bs.getD 1 0 + 2 ^ 16 * bs.getD 2 0
      + 2 ^ 24 * bs.getD 3 0
  | Endian.big, bs => 2 ^ 24 * bs.getD 0 0 + 2 ^ 16 * bs.getD 1 0 + 2 ^ 8 * bs.getD 2 0
      + bs.getD 3 0

/-- Modelled from the spec: the `%lu` conversion of `sprintf` (C library, absent from
`src/`): the decimal digits of `n`, most significant first, as ASCII codes. -/
def decimal (n : Nat) : List Nat :=
  if n = 0 then [48] else ((Nat.digits 10 n).reverse).map (· + 48)

/-- The call `sprintf(hdr, "blob %lu", datlen)`: the buffer contents, terminating NUL included, and
the returned count of characters, which leaves the NUL out. -/
def sprintf_blob (datlen : Nat) : List Nat × Nat :=
  let text := [98, 108, 111, 98, 32] ++ decimal datlen
  (text ++ [0], text.length)

/-- One hexadecimal digit as an ASCII code. -/
def hex_digit (d : Nat) : Nat := if d < 10 then 48 + d else 87 + d

/-- Modelled from the spec: `sha1_to_hex` (absent from `src/`), the 40 lower-case hexadecimal
digits of a 20-byte digest. -/
def sha1_to_hex (sha1 : List Nat) : List Nat :=
  (sha1.take 20).flatMap fun b => [hex_digit (b / 16 % 16), hex_digit (b % 16)]

/-! ## Program state -/

/-- The variable `static int max_depth = 10;`, which is never assigned. -/
def max_depth : Int := 10

/-- The file-scope variables of `fast-import.c` and what was printed on standard output. -/
structure State where
  object_count : Nat
  packfd : File
  current_depth : Int
  lastdat : Option (List Nat)
  lastdatlen : Nat
  lastsha1 : List Nat
  stdout : List (List Nat)

/-- The state at program start (statics are zero) with `packfd` just opened, truncated. -/
def State.start (plan : List SysEvent) : State :=
  { object_count := 0
    packfd := { data := [], pos := 0, plan := plan }
    current_depth := 0
    lastdat := none
    lastdatlen := 0
    lastsha1 := List.replicate 20 0
    stdout := [] }

/-! ## `write_blob` -/

/-- The function `write_blob(dat, datlen)`. The result of each `ywrite` is compared with the expected
length as in the source; `deflate` has no effect on the state, so it is applied where its
output is written. -/
def write_blob (E : Env) (st : State) (dat : List Nat) (datlen : Nat) : Except Fault State :=
  let delta : Option (List Nat) :=
    match st.lastdat with
    | some lastdat =>
      if st.current_depth < max_depth then
        E.diff_delta (lastdat.take st.lastdatlen) (dat.take datlen)
      else none
    | none => none
  match delta with
  | some delta =>
    let deltalen := delta.length
    let current_depth := st.current_depth + 1
    match encode_header OBJ_DELTA deltalen with
    | Except.error e => Except.error e
    | Except.ok (hdrlen, hdr) =>
      let w1 := ywrite st.packfd hdr hdrlen
      if w1.1 ≠ hdrlen then Except.error (Fault.die "Can't write object header") else
      let w2 := ywrite w1.2 st.lastsha1 20
      if w2.1 ≠ 20 then Except.error (Fault.die "Can't write object base") else
      let out := E.deflate (delta.take deltalen)
      let w3 := ywrite w2.2 out out.length
      if w3.1 ≠ out.length then Except.error (Fault.die "Failed writing compressed data") else
      Except.ok { st with current_depth := current_depth, packfd := w3.2 }
  | none =>
    match encode_header OBJ_BLOB datlen with
    | Except.error e => Except.error e
    | Except.ok (hdrlen, hdr) =>
      let w1 := ywrite st.packfd hdr hdrlen
      if w1.1 ≠ hdrlen then Except.error (Fault.die "Can't write object header") else
      let out := E.deflate (dat.take datlen)
      let w3 := ywrite w1.2 out out.length
      if w3.1 ≠ out.length then Except.error (Fault.die "Failed writing compressed data") else
      Except.ok { st with current_depth := 0, packfd := w3.2 }

/-! ## `init_pack_header` and `fixup_header_footer` -/

/-- The function `init_pack_header()`: the magic, then the first four bytes of the
`unsigned long` `version` after `version = htonl(version)`, then the first four bytes of the
`unsigned long` `zero`. -/
def init_pack_header (E : Env) (st : State) : Except Fault State :=
  let magic := [80, 65, 67, 75]
  let version := ulong_store E 2
  let zero := ulong_store E 0
  let version := ulong_store E (htonl E (ulong_load E version))
  let w1 := ywrite st.packfd magic 4
  if w1.1 ≠ 4 then Except.error (Fault.die "Can't write pack magic") else
  let w2 := ywrite w1.2 version 4
  if w2.1 ≠ 4 then Except.error (Fault.die "Can't write pack version") else
  let w3 := ywrite w2.2 zero 4
  if w3.1 ≠ 4 then Except.error (Fault.die "Can't write 0 object count") else
  Except.ok { st with packfd := w3.2 }

/-- The value a `size_t` of `bits` bits holds after being assigned the `ssize_t` `r`. -/
def size_t_of (bits : Nat) (r : Int) : Nat := (r % 2 ^ bits).toNat

/-- The `for (;;)` loop of `fixup_header_footer`. `n` is a `size_t`, so `n <= 0` holds only
for `n = 0`; a call of `SHA1_Update` with `n` above the 128 KiB of `buf` is undefined
behaviour, reported as `Fault.overrun n`. -/
def fixup_loop (bits : Nat) (f : File) (c : List Nat) : Except Fault (List Nat × File) :=
  let r := xread f (128 * 1024)
  let n := size_t_of bits r.1
  if n ≤ 0 then Except.ok (c, r.2.2)
  else if 128 * 1024 < n then Except.error (Fault.overrun n)
  else fixup_loop bits r.2.2 (SHA1_Update c r.2.1 n)
termination_by f.plan.length + (f.data.length - f.pos)
decreasing_by
  rename_i h1 h2
  have hn : n = size_t_of bits (xread f (128 * 1024)).1 := rfl
  rw [hn] at h1
  clear hn h2
  rcases hp : f.plan with _ | ⟨e, plan⟩
  · simp only [xread, hp] at h1 ⊢
    have h0 : ((f.data.drop f.pos).take (128 * 1024)).length ≠ 0 := by
      intro h0
      rw [h0] at h1
      simp [size_t_of] at h1
    simp only [List.length_take, List.length_drop, List.length_nil] at h0 ⊢
    omega
  · cases e <;>
      simp only [xread, hp, List.length_cons, List.length_take, List.length_drop] <;> omega

/-- Modelled from the spec: `lseek(fd, offset, SEEK_SET)` on a regular file: the offset
becomes `offset`, which is returned. -/
def lseek_set (f : File) (offset : Nat) : Int × File := (offset, { f with pos := offset })

/-- The function `fixup_header_footer()`: seek to the start, hash the 8 header bytes, patch
and hash the count, hash the rest of the file, append the digest. `cnt` is an
`unsigned long` that is hashed and written through its first four bytes. The progress line
on standard error is left out. -/
def fixup_header_footer (E : Env) (st : State) : Except Fault State :=
  let s := lseek_set st.packfd 0
  if s.1 ≠ 0 then Except.error (Fault.die "Failed seeking to start") else
  let c := SHA1_Init
  let r := yread s.2 8
  if r.1 ≠ 8 then Except.error (Fault.die "Failed reading header") else
  let c := SHA1_Update c r.2.1 8
  let cnt := ulong_store E (htonl E st.object_count)
  let c := SHA1_Update c cnt 4
  let w := ywrite r.2.2 cnt 4
  if w.1 ≠ 4 then Except.error (Fault.die "Failed writing object count") else
  match fixup_loop E.size_bits w.2 c with
  | Except.error e => Except.error e
  | Except.ok (c, f) =>
    let sha1 := SHA1_Final E c
    let w2 := ywrite f sha1 20
    if w2.1 ≠ 20 then Except.error (Fault.die "Failed writing pack checksum") else
    Except.ok { st with packfd := w2.2 }

/-! ## `main` -/

/-- The part of the loop body of `main` that follows the two reads: hash the blob, write it,
count it, print its digest, and make it the predecessor of the next blob. -/
def main_body (E : Env) (st : State) (dat : List Nat) (datlen : Nat) : Except Fault State :=
  let hdr := sprintf_blob datlen
  let hdrlen := hdr.2 + 1
  let c := SHA1_Init
  let c := SHA1_Update c hdr.1 hdrlen
  let c := SHA1_Update c dat datlen
  let sha1 := SHA1_Final E c
  match write_blob E st dat datlen with
  | Except.error e => Except.error e
  | Except.ok st =>
    Except.ok { st with
      object_count := st.object_count + 1
      stdout := st.stdout ++ [sha1_to_hex sha1 ++ [10]]
      lastdat := some dat
      lastdatlen := datlen
      lastsha1 := sha1.take 20 }


/-- What one `xread` does to the descriptor: it fails and moves nothing, or it returns the
next `m` bytes or what is left of the file, for some `m` between 1 and the length asked for. -/
theorem xread_cases (f : File) (length : Nat) :
    ((xread f length).1 = -1 ∧ (xread f length).2.2.pos = f.pos ∧
      (xread f length).2.2.data = f.data ∧ f.plan ≠ [] ∧
      (xread f length).2.2.plan = f.plan.tail ∧ f.plan.head? = some SysEvent.fail) ∨
    (∃ m, m ≤ length ∧ (0 < length → 0 < m) ∧
      (xread f length).1 = (((f.data.drop f.pos).take m).length : Nat) ∧
      (xread f length).2.1 = (f.data.drop f.pos).take m ∧
      (xread f length).2.2.pos = f.pos + ((f.data.drop f.pos).take m).length ∧
      (xread f length).2.2.data = f.data ∧
      (xread f length).2.2.plan = f.plan.tail) := by
  rcases hp : f.plan with _ | ⟨e, plan⟩
  · right
    exact ⟨length, le_refl _, id, by simp [xread, hp]⟩
  · cases e with
    | fail => left; simp [xread, hp]
    | short k =>
      right
      exact ⟨min length (k + 1), Nat.min_le_left _ _, fun h => by omega, by simp [xread, hp]⟩

/-- A `yread` never changes the file, never moves the offset back, and moves it forward
when it returns more than it started with. -/
theorem yread_loop_progress (f : File) (length ret : Nat) (buffer : List Nat) :
    (yread_loop f length ret buffer).2.2.data = f.data ∧
    f.data.length - (yread_loop f length ret buffer).2.2.pos ≤ f.data.length - f.pos ∧
    ((ret : Int) < (yread_loop f length ret buffer).1 →
      f.data.length - (yread_loop f length ret buffer).2.2.pos < f.data.length - f.pos) := by
  induction f, length, ret, buffer using yread_loop.induct with
  | case1 f length ret buffer hlt r hneg =>
    rw [yread_loop, if_pos hlt]
    simp only [show (xread f (length - ret)) = r from rfl]
    rw [if_pos hneg]
    rcases xread_cases f (length - ret) with ⟨-, h2, h3, -⟩ | ⟨m, -, -, h1, -, -, -⟩
    · refine ⟨h3, by rw [h2], fun h => ?_⟩
      have : r.1 < 0 := hneg
      omega
    · have : r.1 < 0 := hneg
      have h1' : r.1 = _ := h1
      omega
  | case2 f length ret buffer hlt r hneg hz =>
    rw [yread_loop, if_pos hlt]
    simp only [show (xread f (length - ret)) = r from rfl]
    rw [if_neg hneg, if_pos hz]
    rcases xread_cases f (length - ret) with ⟨h1, -⟩ | ⟨m, -, -, h1, -, h2, h3, -⟩
    · have h1' : r.1 = -1 := h1
      omega
    · have h1' : r.1 = _ := h1
      have h2' : r.2.2.pos = _ := h2
      have h3' : r.2.2.data = _ := h3
      refine ⟨h3', by rw [h2']; omega, fun h => ?_⟩
      simp at h
  | case3 f length ret buffer hlt r hneg hz ih =>
    rw [yread_loop, if_pos hlt]
    simp only [show (xread f (length - ret)) = r from rfl]
    rw [if_neg hneg, if_neg hz]
    rcases xread_cases f (length - ret) with ⟨h1, -⟩ | ⟨m, -, -, h1, -, h2, h3, -⟩
    · have h1' : r.1 = -1 := h1
      omega
    · have h1' : r.1 = _ := h1
      have h2' : r.2.2.pos = _ := h2
      have h3' : r.2.2.data = _ := h3
      obtain ⟨i1, i2, -⟩ := ih
      rw [h3'] at i1 i2
      have hl : ((f.data.drop f.pos).take m).length ≤ f.data.length - f.pos := by
        simp only [List.length_take, List.length_drop]; omega
      have hpos : 0 < ((f.data.drop f.pos).take m).length := by omega
      refine ⟨i1, by omega, fun _ => by omega⟩
  | case4 f length ret buffer hlt =>
    rw [yread_loop, if_neg hlt]
    exact ⟨rfl, le_refl _, fun h => by simp at h⟩

/-- The `for (;;)` loop of `main`, reading standard input; `break` returns the state.
`datlen` is an uninitialised `unsigned long` whose first four bytes the read fills; then
`xmalloc(datlen)` succeeds or dies. -/
def main_loop (E : Env) (stdin : File) (st : State) : Except Fault State :=
  let datlen0 := E.indeterminate st.object_count
  let r1 := yread stdin 4
  if r1.1 ≠ 4 then Except.ok st else
  let datlen := ulong_load E (r1.2.1 ++ datlen0.drop 4)
  if E.xmalloc_ok datlen = false then
    Except.error (Fault.die "Out of memory, malloc failed") else
  let r2 := yread r1.2.2 datlen
  if r2.1 ≠ datlen then Except.ok st else
  match main_body E st r2.2.1 datlen with
  | Except.error e => Except.error e
  | Except.ok st' => main_loop E r2.2.2 st'
termination_by stdin.data.length - stdin.pos
decreasing_by
  rename_i h1 _ _
  have h4 : (yread_loop stdin 4 0 []).1 = 4 := not_not.mp h1
  obtain ⟨a1, -, a3⟩ := yread_loop_progress stdin 4 0 []
  obtain ⟨b1, b2, -⟩ := yread_loop_progress (yread_loop stdin 4 0 []).2.2
    (ulong_load E ((yread_loop stdin 4 0 []).2.1 ++
      (E.indeterminate st.object_count).drop 4)) 0 []
  rw [h4] at a3
  have a4 := a3 (by norm_num)
  simp only [yread]
  rw [b1, a1]
  rw [a1] at b2
  omega

/-- The function `main`: `stdin` is standard input, `plan` the outcomes of the calls on the
pack file, which `open` (taken to succeed) has just created or truncated. The final
`close` and `return 0` change nothing that is modelled. -/
def main (E : Env) (stdin : File) (plan : List SysEvent) : Except Fault State :=
  match init_pack_header E (State.start plan) with
  | Except.error e => Except.error e
  | Except.ok st =>
    match main_loop E stdin st with
    | Except.error e => Except.error e
    | Except.ok st => fixup_header_footer E st

/-! ## Reference definitions for stating the run-level properties -/

/-- The longest prefix of complete records of an input stream: a record is a 4-byte
host-endian length `L` followed by `L` payload bytes. -/
def complete_records (e : Endian) (data : List Nat) : List (List Nat) :=
  if 4 ≤ data.length then
    if host_u32 e (data.take 4) ≤ data.length - 4 then
      (data.drop 4).take (host_u32 e (data.take 4)) ::
        complete_records e (data.drop (4 + host_u32 e (data.take 4)))
    else []
  else []
termination_by data.length
decreasing_by
  simp only [List.length_drop]
  omega

/-- The type bits (bits 4-6) of the first byte that a step appended to the pack file. -/
def written_kind (before after : State) : Nat :=
  (after.packfd.data.getD before.packfd.data.length 0 >>> 4) &&& 7

/-- The loop body of `main` applied to a list of blobs in turn; next to the final state, the
kinds of the records written, read off the pack file after every step. -/
def import_blobs (E : Env) : State → List (List Nat) → Except Fault (State × List Nat)
  | st, [] => Except.ok (st, [])
  | st, dat :: rest =>
    match main_body E st dat dat.length with
    | Except.error e => Except.error e
    | Except.ok st' =>
      match import_blobs E st' rest with
      | Except.error e => Except.error e
      | Except.ok r => Except.ok (r.1, written_kind st st' :: r.2)

/-- The delta `write_blob` stores for a blob, if any: there is a previous blob, the chain is
shorter than `max_depth`, and `diff_delta` returns a delta. -/
def chosen_delta (E : Env) (st : State) (dat : List Nat) (datlen : Nat) : Option (List Nat) :=
  match st.lastdat with
  | some lastdat =>
    if st.current_depth < max_depth then
      E.diff_delta (lastdat.take st.lastdatlen) (dat.take datlen)
    else none
  | none => none

/-- The bytes `encode_header` writes, or nothing when it fails. -/
def header_bytes (type : Int) (size : Nat) : List Nat :=
  match encode_header type size with
  | Except.ok r => r.2
  | Except.error _ => []

/-- The object record of a blob: header, base digest when it is a delta, compressed payload. -/
def blob_record (E : Env) (st : State) (dat : List Nat) (datlen : Nat) : List Nat :=
  match chosen_delta E st dat datlen with
  | some delta => header_bytes OBJ_DELTA delta.length ++ st.lastsha1 ++ E.deflate delta
  | none => header_bytes OBJ_BLOB datlen ++ E.deflate (dat.take datlen)

/-- The bytes whose SHA-1 is a blob's name: `"blob "`, the decimal length, a NUL, the blob. -/
def blob_hash_input (dat : List Nat) : List Nat :=
  [98, 108, 111, 98, 32] ++ decimal dat.length ++ [0] ++ dat

/-- A state in the streaming phase in which no call on the pack file will fail: the pack
file is positioned at its end and `lastsha1` holds 20 bytes. -/
def Streaming (st : State) : Prop :=
  SysEvent.fail ∉ st.packfd.plan ∧ st.packfd.pos = st.packfd.data.length ∧
    st.lastsha1.length = 20


/-- The chain depth after one more record of kind `k`. -/
def kind_step (d : Int) (k : Nat) : Int := if (k : Int) = OBJ_DELTA then d + 1 else 0

/-- The chain depth after records of the kinds `ks`, starting from depth `d`. -/
def chain_depth : Int → List Nat → Int
  | d, [] => d
  | d, k :: ks => chain_depth (kind_step d k) ks

/-- Every record is a full blob or a delta, and a delta is only written below `max_depth`. -/
def chain_ok : Int → List Nat → Prop
  | _, [] => True
  | d, k :: ks =>
    (((k : Int) = OBJ_DELTA ∧ d < max_depth) ∨ (k : Int) = OBJ_BLOB) ∧ chain_ok (kind_step d k) ks

/-- The number of delta records at the end of a list of record kinds. -/
def trailing_deltas (ks : List Nat) : Nat :=
  (ks.reverse.takeWhile fun k => decide ((k : Int) = OBJ_DELTA)).length

/-- An input stream read as records: records of a 4-byte host-endian length `L` and `L`
payload bytes, as many as are complete, then a rest that does not start with a complete
record (fewer than 4 bytes, or fewer payload bytes than its length asks for). -/
inductive Parses (e : Endian) : List Nat → List (List Nat) → Prop where
  | done (rest : List Nat)
      (h : rest.length < 4 ∨ rest.length - 4 < host_u32 e (rest.take 4)) : Parses e rest []
  | record (len payload rest : List Nat) (recs : List (List Nat)) (h4 : len.length = 4)
      (hL : host_u32 e len = payload.length) (hrest : Parses e rest recs) :
      Parses e (len ++ payload ++ rest) (payload :: recs)

/-- A small instance of `Env` for evaluating the definitions; its `SHA1` is a 20-byte
checksum standing in for SHA-1, its `diff_delta` only knows identical blobs. The host is
little-endian with an 8-byte `unsigned long`, `datlen` is found zeroed, `malloc` succeeds. -/
def Env.toy : Env :=
  { SHA1 := fun m => List.replicate 20 (m.sum % 256)
    sha1_length := fun _ => List.length_replicate _ _
    diff_delta := fun a b => if a = b then some [a.length, b.length] else none
    deflate := fun m => m
    size_bits := 64
    size_bits_ge := by decide
    endian := Endian.little
    long_bytes := 8
    long_bytes_eq := Or.inr rfl
    indeterminate := fun _ => []
    xmalloc_ok := fun _ => true }

/-- The host of `Env.toy` where `datlen` is found with a 1 in the fifth byte, and `malloc`
gives less than 4 GiB. -/
def Env.stale : Env :=
  { Env.toy with
    indeterminate := fun _ => [0, 0, 0, 0, 1, 0, 0, 0]
    xmalloc_ok := fun n => decide (n < 2 ^ 32) }

/-- The host of `Env.stale` with a `malloc` that never fails. -/
def Env.stale_roomy : Env :=
  { Env.toy with indeterminate := fun _ => [0, 0, 0, 0, 1, 0, 0, 0] }

/-- A big-endian host with an 8-byte `unsigned long`, otherwise as `Env.toy`. -/
def Env.big64 : Env :=
  { Env.toy with endian := Endian.big }

/-- The host leaves `datlen` holding exactly the four bytes read: the value of the object
is the value of those bytes in host order (so on every host with a 4-byte `unsigned long`). -/
def Env.datlen_exact (E : Env) : Prop :=
  ∀ k bs, bs.length = 4 →
    ulong_load E (bs ++ (E.indeterminate k).drop 4) = host_u32 E.endian bs

/-! ## The header encoding -/

theorem and_127_eq_mod (x : Nat) : x &&& 0x7f = x % 128 :=
  Nat.and_pow_two_sub_one_eq_mod x 7

theorem and_15_eq_mod (x : Nat) : x &&& 15 = x % 16 :=
  Nat.and_pow_two_sub_one_eq_mod x 4

theorem or_128_of_lt : ∀ c < 128, (c ||| 0x80) % 256 = c + 128 := by decide

theorem encode_header_loop_zero (c n : Nat) : encode_header_loop c 0 n = ([c], n) := by
  rw [encode_header_loop]; simp

theorem encode_header_loop_pos (c size n : Nat) (h : size ≠ 0) :
    encode_header_loop c size n =
      ((c ||| 0x80) % 256 :: (encode_header_loop (size &&& 0x7f) (size >>> 7) (n + 1)).1,
        (encode_header_loop (size &&& 0x7f) (size >>> 7) (n + 1)).2) := by
  rw [encode_header_loop]; simp [h]

/-- Everything the loop of `encode_header` does, for a pending byte `c` below 128. -/
theorem encode_header_loop_spec (c size n : Nat) (hc : c < 128) :
    ∃ k, (encode_header_loop c size n).2 = n + k ∧
      (encode_header_loop c size n).1.length = k + 1 ∧
      size >>> (7 * k) = 0 ∧ (∀ m < k, size >>> (7 * m) ≠ 0) ∧
      (encode_header_loop c size n).1.getD 0 0 = (if k = 0 then c else c + 128) ∧
      (∀ i, 1 ≤ i → i ≤ k → (encode_header_loop c size n).1.getD i 0 =
        (size >>> (7 * (i - 1))) % 128 + (if i < k then 128 else 0)) := by
  induction c, size, n using encode_header_loop.induct with
  | case1 c size n hs ih =>
    have hc2 : size &&& 0x7f < 128 := by rw [and_127_eq_mod]; omega
    obtain ⟨k, h1, h2, h3, h4, h5, h6⟩ := ih hc2
    rw [encode_header_loop_pos c size n hs]
    refine ⟨k + 1, ?_, ?_, ?_, ?_, ?_, ?_⟩
    · simp only [h1]; omega
    · simp [h2]
    · rw [Nat.mul_add, Nat.mul_one, Nat.add_comm, Nat.shiftRight_add]; exact h3
    · intro m hm
      cases m with
      | zero => simpa using hs
      | succ m =>
        rw [Nat.mul_add, Nat.mul_one, Nat.add_comm, Nat.shiftRight_add]
        exact h4 m (by omega)
    · simp [or_128_of_lt c hc]
    · intro i hi1 hik
      obtain ⟨j, rfl⟩ : ∃ j, i = j + 1 := ⟨i - 1, by omega⟩
      simp only [List.getD_cons_succ, Nat.add_sub_cancel]
      cases j with
      | zero =>
        rw [h5, and_127_eq_mod]
        by_cases hk : k = 0
        · simp [hk]
        · have : 0 < k := by omega
          simp [hk, this]
      | succ j =>
        rw [h6 (j + 1) (by omega) (by omega)]
        simp only [Nat.add_sub_cancel]
        have e : size >>> (7 * (j + 1)) = size >>> 7 >>> (7 * j) := by
          rw [Nat.mul_add, Nat.mul_one, Nat.add_comm, Nat.shiftRight_add]
        rw [e]
        by_cases hj : j + 1 < k
        · have : j + 1 + 1 < k + 1 := by omega
          simp [hj, this]
        · have : ¬ j + 1 + 1 < k + 1 := by omega
          simp [hj, this]
  | case2 c size n hs =>
    have hs0 : size = 0 := by simpa using hs
    subst hs0
    rw [encode_header_loop_zero]
    refine ⟨0, by simp, by simp, by simp, by simp, by simp, ?_⟩
    intro i h1 h2
    omega


theorem first_byte_bits : ∀ tn < 8, ∀ r < 16,
    ((tn <<< 4) ||| r) % 256 < 128 ∧
    ((((tn <<< 4) ||| r) % 256) >>> 4) &&& 7 = tn ∧
    (((tn <<< 4) ||| r) % 256) &&& 15 = r ∧
    ((((tn <<< 4) ||| r) % 256 + 128) >>> 4) &&& 7 = tn ∧
    (((tn <<< 4) ||| r) % 256 + 128) &&& 15 = r := by decide

theorem septet_bits : ∀ y < 128,
    y &&& 0x7f = y ∧ (y + 128) &&& 0x7f = y ∧ y &&& 0x80 = 0 ∧ (y + 128) &&& 0x80 = 0x80 := by
  decide

theorem type_toNat_lt (t : Int) (ht : OBJ_COMMIT ≤ t ∧ t ≤ OBJ_DELTA) :
    1 ≤ t.toNat ∧ t.toNat < 8 ∧ (t.toNat : Int) = t := by
  simp only [OBJ_COMMIT, OBJ_DELTA] at ht
  omega

/-- C1: for every type in `OBJ_COMMIT..OBJ_DELTA` and every size, `encode_header` succeeds,
returns the number `n` of bytes it wrote, packs the type into bits 4-6 and the low four size
bits into bits 0-3 of the first byte, stores the following size septets in the later bytes,
sets the top bit on every byte but the last, and `n` is the least count that leaves no size
bits (so `n = 1` exactly when the size is below 16). -/
theorem encode_header_layout (t : Int) (s : Nat) (ht : OBJ_COMMIT ≤ t ∧ t ≤ OBJ_DELTA) :
    ∃ n b, encode_header t s = Except.ok (n, b) ∧ b.length = n ∧ 1 ≤ n ∧
      (∀ i < n, b.getD i 0 < 256) ∧
      (((b.getD 0 0 >>> 4) &&& 7 : Nat) : Int) = t ∧
      b.getD 0 0 &&& 15 = s &&& 15 ∧
      (∀ i, 1 ≤ i → i < n → b.getD i 0 &&& 0x7f = ((s >>> 4) >>> (7 * (i - 1))) &&& 0x7f) ∧
      (∀ i, i + 1 < n → b.getD i 0 &&& 0x80 = 0x80) ∧
      b.getD (n - 1) 0 &&& 0x80 = 0 ∧
      (s >>> 4) >>> (7 * (n - 1)) = 0 ∧
      (∀ m, 1 ≤ m → m < n → (s >>> 4) >>> (7 * (m - 1)) ≠ 0) ∧
      (n = 1 ↔ s < 16) := by
  obtain ⟨ht1, ht8, htc⟩ := type_toNat_lt t ht
  have hr : s &&& 15 < 16 := by rw [and_15_eq_mod]; omega
  obtain ⟨hc, f1, f2, f3, f4⟩ := first_byte_bits t.toNat ht8 (s &&& 15) hr
  obtain ⟨k, h1, h2, h3, h4, h5, h6⟩ :=
    encode_header_loop_spec (((t.toNat <<< 4) ||| (s &&& 15)) % 256) (s >>> 4) 1 hc
  have hnot : ¬ (t < OBJ_COMMIT ∨ t > OBJ_DELTA) := by
    simp only [OBJ_COMMIT, OBJ_DELTA] at ht ⊢; omega
  refine ⟨_, _, by simp only [encode_header, hnot, if_false]; rfl, ?_, ?_, ?_, ?_, ?_, ?_, ?_,
    ?_, ?_, ?_, ?_⟩
  · rw [h1, h2]; omega
  · rw [h1]; omega
  · intro i hi
    rw [h1] at hi
    cases i with
    | zero => rw [h5]; split <;> omega
    | succ j =>
      rw [h6 (j + 1) (by omega) (by omega)]
      have := Nat.mod_lt ((s >>> 4) >>> (7 * (j + 1 - 1))) (by norm_num : 128 > 0)
      split <;> omega
  · rw [h5]
    split
    · rw [f1]; exact htc
    · rw [f3]; exact htc
  · rw [h5]
    split
    · exact f2
    · exact f4
  · intro i hi1 hin
    rw [h1] at hin
    rw [h6 i hi1 (by omega), and_127_eq_mod ((s >>> 4) >>> (7 * (i - 1)))]
    have hy := Nat.mod_lt ((s >>> 4) >>> (7 * (i - 1))) (by norm_num : 128 > 0)
    obtain ⟨g1, g2, -, -⟩ := septet_bits _ hy
    split
    · exact g2
    · exact g1
  · intro i hin
    rw [h1] at hin
    cases i with
    | zero =>
      rw [h5, if_neg (by omega)]
      exact (septet_bits _ hc).2.2.2
    | succ j =>
      rw [h6 (j + 1) (by omega) (by omega), if_pos (by omega)]
      exact (septet_bits _ (Nat.mod_lt _ (by norm_num))).2.2.2
  · rw [h1]
    cases k with
    | zero =>
      rw [h5, if_pos rfl]
      exact (septet_bits _ hc).2.2.1
    | succ j =>
      have e : 1 + (j + 1) - 1 = j + 1 := by omega
      rw [e, h6 (j + 1) (by omega) (by omega), if_neg (by omega), Nat.add_zero]
      exact (septet_bits _ (Nat.mod_lt _ (by norm_num))).2.2.1
  · rw [h1]
    have e : 1 + k - 1 = k := by omega
    rw [e]; exact h3
  · intro m hm1 hmn
    rw [h1] at hmn
    exact h4 (m - 1) (by omega)
  · rw [h1]
    have hsz : s >>> 4 = s / 16 := by rw [Nat.shiftRight_eq_div_pow]
    constructor
    · intro hk
      have hk0 : k = 0 := by omega
      subst hk0
      simp only [Nat.mul_zero, Nat.shiftRight_zero] at h3
      omega
    · intro hs
      have hz : s >>> 4 = 0 := by omega
      by_contra hne
      have := h4 0 (by omega)
      simp [hz] at this

/-- C1 at a blob header for size 300. -/
theorem encode_header_layout_witness :
    ∃ n b, encode_header 3 300 = Except.ok (n, b) ∧ b.length = n ∧ 1 ≤ n ∧
      (∀ i < n, b.getD i 0 < 256) ∧
      (((b.getD 0 0 >>> 4) &&& 7 : Nat) : Int) = 3 ∧
      b.getD 0 0 &&& 15 = 300 &&& 15 ∧
      (∀ i, 1 ≤ i → i < n → b.getD i 0 &&& 0x7f = ((300 >>> 4) >>> (7 * (i - 1))) &&& 0x7f) ∧
      (∀ i, i + 1 < n → b.getD i 0 &&& 0x80 = 0x80) ∧
      b.getD (n - 1) 0 &&& 0x80 = 0 ∧
      (300 >>> 4) >>> (7 * (n - 1)) = 0 ∧
      (∀ m, 1 ≤ m → m < n → (300 >>> 4) >>> (7 * (m - 1)) ≠ 0) ∧
      (n = 1 ↔ 300 < 16) :=
  encode_header_layout 3 300 (by decide)

theorem septet_recombine (size shift : Nat) :
    ((size &&& 0x7f) <<< (shift + 7)) + ((size >>> 7) <<< (shift + 7 + 7)) =
      size <<< (shift + 7) := by
  rw [and_127_eq_mod, Nat.shiftLeft_eq, Nat.shiftLeft_eq, Nat.shiftLeft_eq,
    Nat.shiftRight_eq_div_pow, Nat.pow_add 2 (shift + 7) 7]
  have h := Nat.mod_add_div size 128
  have e : (2 : Nat) ^ 7 = 128 := by norm_num
  rw [e]
  calc size % 128 * 2 ^ (shift + 7) + size / 128 * (2 ^ (shift + 7) * 128)
      = (size % 128 + 128 * (size / 128)) * 2 ^ (shift + 7) := by ring
    _ = size * 2 ^ (shift + 7) := by rw [h]

theorem pack_decode_size_loop (c size n : Nat) (hc : c < 128) :
    ∀ rest shift acc used,
      pack_decode_size ((encode_header_loop c size n).1 ++ rest) shift acc used =
        some (acc + (c <<< shift) + (size <<< (shift + 7)),
          used + (encode_header_loop c size n).1.length) := by
  induction c, size, n using encode_header_loop.induct with
  | case1 c size n hs ih =>
    intro rest shift acc used
    have hc2 : size &&& 0x7f < 128 := by rw [and_127_eq_mod]; omega
    obtain ⟨-, g2, -, g4⟩ := septet_bits c hc
    rw [encode_header_loop_pos c size n hs, or_128_of_lt c hc]
    simp only [List.cons_append, pack_decode_size, g2, g4, List.append_eq]
    rw [if_neg (by decide), ih hc2 rest (shift + 7) (acc + c <<< shift) (used + 1),
      Nat.add_assoc (acc + c <<< shift), septet_recombine]
    simp only [List.length_cons]
    congr 2
    omega
  | case2 c size n hs =>
    intro rest shift acc used
    have hs0 : size = 0 := by simpa using hs
    subst hs0
    obtain ⟨g1, -, g3, -⟩ := septet_bits c hc
    rw [encode_header_loop_zero]
    simp [pack_decode_size, g1, g3]

theorem encode_header_ok (t : Int) (s : Nat) (ht : OBJ_COMMIT ≤ t ∧ t ≤ OBJ_DELTA) :
    encode_header t s = Except.ok
      ((encode_header_loop (((t.toNat <<< 4) ||| (s &&& 15)) % 256) (s >>> 4) 1).2,
       (encode_header_loop (((t.toNat <<< 4) ||| (s &&& 15)) % 256) (s >>> 4) 1).1) := by
  have hnot : ¬ (t < OBJ_COMMIT ∨ t > OBJ_DELTA) := by
    simp only [OBJ_COMMIT, OBJ_DELTA] at ht ⊢; omega
  simp only [encode_header, hnot, if_false]

theorem low_nibble_recombine (s : Nat) : (s &&& 15) + ((s >>> 4) <<< 4) = s := by
  rw [and_15_eq_mod, Nat.shiftLeft_eq, Nat.shiftRight_eq_div_pow]
  have := Nat.mod_add_div s 16
  norm_num
  omega

/-- Decoding what `encode_header` wrote, followed by anything, gives back type, size, count. -/
theorem pack_decode_encode (t : Int) (s : Nat) (ht : OBJ_COMMIT ≤ t ∧ t ≤ OBJ_DELTA)
    (n : Nat) (b : List Nat) (he : encode_header t s = Except.ok (n, b)) (rest : List Nat) :
    pack_decode_header (b ++ rest) = some (t.toNat, s, n) := by
  obtain ⟨ht1, ht8, htc⟩ := type_toNat_lt t ht
  have hr : s &&& 15 < 16 := by rw [and_15_eq_mod]; omega
  obtain ⟨hc, f1, f2, f3, f4⟩ := first_byte_bits t.toNat ht8 (s &&& 15) hr
  rw [encode_header_ok t s ht] at he
  generalize ((t.toNat <<< 4) ||| (s &&& 15)) % 256 = c at *
  injection he with he
  injection he with hn hb
  obtain ⟨k, h1, h2, -, -, -, -⟩ := encode_header_loop_spec c (s >>> 4) 1 hc
  have hlen : b.length = n := by rw [← hb, ← hn, h1, h2]; omega
  subst hb
  by_cases hs : s >>> 4 = 0
  · rw [hs, encode_header_loop_zero] at hn ⊢
    obtain ⟨-, -, g3, -⟩ := septet_bits _ hc
    have hs' : s &&& 15 = s := by
      have := low_nibble_recombine s
      rw [hs] at this
      simpa using this
    simp only [List.singleton_append, pack_decode_header, g3, if_true, f1, f2, hs', ← hn]
  · rw [encode_header_loop_pos _ _ _ hs, or_128_of_lt _ hc] at hlen ⊢
    obtain ⟨-, -, -, g4⟩ := septet_bits _ hc
    have hc2 : (s >>> 4) &&& 0x7f < 128 := by rw [and_127_eq_mod]; omega
    simp only [List.cons_append, pack_decode_header, g4, f3, f4, List.append_eq]
    rw [if_neg (by decide), pack_decode_size_loop _ _ _ hc2]
    have r2 : (((s >>> 4) &&& 0x7f) <<< 4) + (((s >>> 4) >>> 7) <<< (4 + 7)) = (s >>> 4) <<< 4 := by
      rw [and_127_eq_mod, Nat.shiftLeft_eq, Nat.shiftLeft_eq, Nat.shiftLeft_eq,
        Nat.shiftRight_eq_div_pow (s >>> 4) 7]
      have h := Nat.mod_add_div (s >>> 4) 128
      norm_num
      omega
    simp only [List.length_cons] at hlen
    simp only [Option.map_some']
    rw [Nat.add_assoc, r2, low_nibble_recombine, Nat.add_comm 1, hlen]

/-- C9: decoding the bytes `encode_header` wrote for a type in range with the pack-format
header decoder, whatever follows them, gives back the type and the size and consumes exactly
the returned count; hence the encoding is injective, no encoding is a proper prefix of
another, and a size below `2 ^ 64` takes at most 10 bytes, within the 64-byte `hdr`. -/
theorem encode_header_roundtrip (t : Int) (s : Nat) (ht : OBJ_COMMIT ≤ t ∧ t ≤ OBJ_DELTA) :
    ∃ (n : Nat) (b : List Nat) (tn : Nat), encode_header t s = Except.ok (n, b) ∧ (tn : Int) = t ∧
      (∀ rest, pack_decode_header (b ++ rest) = some (tn, s, n)) ∧
      (∀ t' s' n', OBJ_COMMIT ≤ t' ∧ t' ≤ OBJ_DELTA →
        encode_header t' s' = Except.ok (n', b) → t' = t ∧ s' = s) ∧
      (∀ t' s' n' b', OBJ_COMMIT ≤ t' ∧ t' ≤ OBJ_DELTA →
        encode_header t' s' = Except.ok (n', b') → b <+: b' → b' = b ∧ t' = t ∧ s' = s) ∧
      (s < 2 ^ 64 → n ≤ 10 ∧ n ≤ 64) := by
  obtain ⟨ht1, ht8, htc⟩ := type_toNat_lt t ht
  have hok := encode_header_ok t s ht
  have hdec := pack_decode_encode t s ht _ _ hok
  have key : ∀ t' s' n' b', OBJ_COMMIT ≤ t' ∧ t' ≤ OBJ_DELTA →
      encode_header t' s' = Except.ok (n', b') →
      (encode_header_loop (((t.toNat <<< 4) ||| (s &&& 15)) % 256) (s >>> 4) 1).1 <+: b' →
      t' = t ∧ s' = s := by
    intro t' s' n' b' ht' he' hp
    obtain ⟨r, hr⟩ := hp
    have d1 := pack_decode_encode t' s' ht' n' b' he' []
    have d2 := hdec r
    rw [List.append_nil, ← hr, d2] at d1
    obtain ⟨-, -, htc'⟩ := type_toNat_lt t' ht'
    simp only [Option.some.injEq, Prod.mk.injEq] at d1
    refine ⟨?_, d1.2.1.symm⟩
    rw [← htc, ← htc', d1.1]
  refine ⟨_, _, t.toNat, hok, htc, hdec, ?_, ?_, ?_⟩
  · intro t' s' n' ht' he'
    exact key t' s' n' _ ht' he' (List.prefix_refl _)
  · intro t' s' n' b' ht' he' hp
    obtain ⟨e1, e2⟩ := key t' s' n' b' ht' he' hp
    subst e1 e2
    rw [hok] at he'
    simp only [Except.ok.injEq, Prod.mk.injEq] at he'
    exact ⟨he'.2.symm, rfl, rfl⟩
  · intro hs
    have hr : s &&& 15 < 16 := by rw [and_15_eq_mod]; omega
    obtain ⟨hc, -⟩ := first_byte_bits t.toNat ht8 (s &&& 15) hr
    obtain ⟨k, h1, -, -, h4, -, -⟩ :=
      encode_header_loop_spec (((t.toNat <<< 4) ||| (s &&& 15)) % 256) (s >>> 4) 1 hc
    have hk : k ≤ 9 := by
      by_contra hk
      have h9 := h4 9 (by omega)
      apply h9
      rw [Nat.shiftRight_eq_div_pow, Nat.shiftRight_eq_div_pow]
      have : s / 2 ^ 4 < 2 ^ 60 := by
        rw [Nat.div_lt_iff_lt_mul (by norm_num)]
        calc s < 2 ^ 64 := hs
          _ = 2 ^ 60 * 2 ^ 4 := by norm_num
      exact Nat.div_eq_of_lt (lt_of_lt_of_le this (by norm_num))
    rw [h1]
    omega

/-- C9 at a delta header for size 70000. -/
theorem encode_header_roundtrip_witness :
    ∃ (n : Nat) (b : List Nat) (tn : Nat), encode_header 7 70000 = Except.ok (n, b) ∧ (tn : Int) = 7 ∧
      (∀ rest, pack_decode_header (b ++ rest) = some (tn, 70000, n)) ∧
      (∀ t' s' n', OBJ_COMMIT ≤ t' ∧ t' ≤ OBJ_DELTA →
        encode_header t' s' = Except.ok (n', b) → t' = 7 ∧ s' = 70000) ∧
      (∀ t' s' n' b', OBJ_COMMIT ≤ t' ∧ t' ≤ OBJ_DELTA →
        encode_header t' s' = Except.ok (n', b') → b <+: b' → b' = b ∧ t' = 7 ∧ s' = 70000) ∧
      (70000 < 2 ^ 64 → n ≤ 10 ∧ n ≤ 64) :=
  encode_header_roundtrip 7 70000 (by decide)

/-! ## Reads and writes that do not fail -/

theorem write_at_of_le (d : List Nat) (p : Nat) (bs : List Nat) (hp : p ≤ d.length) :
    write_at d p bs = d.take p ++ bs ++ d.drop (p + bs.length) := by
  simp [write_at, Nat.sub_eq_zero_of_le hp]

theorem write_at_end (d bs : List Nat) : write_at d d.length bs = d ++ bs := by
  simp [write_at]

theorem write_at_length (d : List Nat) (p : Nat) (bs : List Nat) (hp : p ≤ d.length) :
    (write_at d p bs).length = max d.length (p + bs.length) := by
  rw [write_at_of_le d p bs hp]
  simp only [List.length_append, List.length_take, List.length_drop]
  omega

theorem write_at_write_at (d : List Nat) (p : Nat) (a b : List Nat) (hp : p ≤ d.length) :
    write_at (write_at d p a) (p + a.length) b = write_at d p (a ++ b) := by
  have hl := write_at_length d p a hp
  rw [write_at_of_le _ _ b (by omega), write_at_of_le d p a hp,
    write_at_of_le d p (a ++ b) hp]
  have h1 : (d.take p ++ a ++ d.drop (p + a.length)).take (p + a.length) = d.take p ++ a := by
    rw [List.take_append_of_le_length (by simp; omega)]
    rw [List.take_of_length_le (by simp)]
  have h2 : (d.take p ++ a ++ d.drop (p + a.length)).drop (p + a.length + b.length) =
      d.drop (p + (a ++ b).length) := by
    rw [List.drop_append_eq_append_drop]
    rw [List.drop_of_length_le (by simp; omega)]
    simp only [List.length_append, List.length_take, List.nil_append, List.drop_drop]
    congr 1
    omega
  rw [h1, h2]
  simp

theorem xwrite_cases (f : File) (buffer : List Nat) (length : Nat) :
    ((xwrite f buffer length).1 = -1 ∧ f.plan.head? = some SysEvent.fail) ∨
    (∃ m, m ≤ length ∧ (0 < length → 0 < m) ∧
      (xwrite f buffer length).1 = ((buffer.take m).length : Nat) ∧
      (xwrite f buffer length).2.data = write_at f.data f.pos (buffer.take m) ∧
      (xwrite f buffer length).2.pos = f.pos + (buffer.take m).length ∧
      (xwrite f buffer length).2.plan = f.plan.tail) := by
  rcases hp : f.plan with _ | ⟨e, plan⟩
  · right
    exact ⟨length, le_refl _, id, by simp [xwrite, hp]⟩
  · cases e with
    | fail => left; simp [xwrite, hp]
    | short k =>
      right
      exact ⟨min length (k + 1), Nat.min_le_left _ _, fun h => by omega, by simp [xwrite, hp]⟩

theorem not_fail_tail (plan : List SysEvent) (h : SysEvent.fail ∉ plan) :
    SysEvent.fail ∉ plan.tail :=
  fun hm => h (List.mem_of_mem_tail hm)

theorem head_ne_fail (plan : List SysEvent) (h : SysEvent.fail ∉ plan) :
    plan.head? ≠ some SysEvent.fail := by
  cases plan with
  | nil => simp
  | cons e plan =>
    simp only [List.head?_cons, ne_eq, Option.some.injEq]
    intro he
    exact h (by simp [he])

/-- A `ywrite` on a descriptor whose calls do not fail writes the whole range, however the
single `write` calls split it. -/
theorem ywrite_loop_ok (f : File) (buffer : List Nat) (length ret : Nat)
    (hf : SysEvent.fail ∉ f.plan) (hp : f.pos ≤ f.data.length) (hr : ret ≤ length)
    (hb : length ≤ buffer.length) :
    (ywrite_loop f buffer length ret).1 = (length : Nat) ∧
    (ywrite_loop f buffer length ret).2.data =
      write_at f.data f.pos ((buffer.take length).drop ret) ∧
    (ywrite_loop f buffer length ret).2.pos = f.pos + (length - ret) ∧
    SysEvent.fail ∉ (ywrite_loop f buffer length ret).2.plan := by
  induction f, buffer, length, ret using ywrite_loop.induct with
  | case1 f buffer length ret hlt r hneg =>
    exfalso
    rcases xwrite_cases f (buffer.drop ret) (length - ret) with ⟨-, h⟩ | ⟨m, -, -, h1, -⟩
    · exact head_ne_fail _ hf h
    · have h1' : r.1 = _ := h1
      omega
  | case2 f buffer length ret hlt r hneg hz =>
    exfalso
    rcases xwrite_cases f (buffer.drop ret) (length - ret) with ⟨-, h⟩ | ⟨m, -, hm, h1, -⟩
    · exact head_ne_fail _ hf h
    · have h1' : r.1 = _ := h1
      simp only [List.length_take, List.length_drop] at h1'
      omega
  | case3 f buffer length ret hlt r hneg hz ih =>
    rw [ywrite_loop, if_pos hlt]
    simp only [show (xwrite f (buffer.drop ret) (length - ret)) = r from rfl]
    rw [if_neg hneg, if_neg hz]
    rcases xwrite_cases f (buffer.drop ret) (length - ret) with
      ⟨-, h⟩ | ⟨m, hml, hm, h1, h2, h3, h4⟩
    · exact absurd h (head_ne_fail _ hf)
    · have h1' : r.1 = _ := h1
      have h2' : r.2.data = _ := h2
      have h3' : r.2.pos = _ := h3
      have h4' : r.2.plan = _ := h4
      have hlen : ((buffer.drop ret).take m).length = m := by
        simp only [List.length_take, List.length_drop]; omega
      rw [hlen] at h1' h3'
      have hto : r.1.toNat = m := by omega
      have hd : r.2.data.length = max f.data.length (f.pos + m) := by
        rw [h2', write_at_length _ _ _ hp, hlen]
      obtain ⟨i1, i2, i3, i4⟩ := ih (by rw [h4']; exact not_fail_tail _ hf)
        (by rw [h3', hd]; omega) (by omega) hb
      rw [hto] at i1 i2 i3 i4
      rw [hto]
      refine ⟨i1, ?_, by rw [i3, h3']; omega, i4⟩
      rw [i2, h2', h3']
      have e := write_at_write_at f.data f.pos ((buffer.drop ret).take m)
        ((buffer.take length).drop (ret + m)) hp
      rw [hlen] at e
      rw [e]
      congr 1
      rw [List.drop_take, List.drop_take]
      have e2 : length - ret = m + (length - (ret + m)) := by omega
      rw [e2, List.take_add, List.drop_drop]
  | case4 f buffer length ret hlt =>
    rw [ywrite_loop, if_neg hlt]
    have e : ret = length := by omega
    subst e
    refine ⟨rfl, ?_, by simp, hf⟩
    rw [List.drop_of_length_le (by simp), write_at_of_le _ _ _ hp]
    simp

theorem ywrite_ok (f : File) (buffer : List Nat) (length : Nat)
    (hf : SysEvent.fail ∉ f.plan) (hp : f.pos ≤ f.data.length) (hb : length ≤ buffer.length) :
    (ywrite f buffer length).1 = (length : Nat) ∧
    (ywrite f buffer length).2.data = write_at f.data f.pos (buffer.take length) ∧
    (ywrite f buffer length).2.pos = f.pos + length ∧
    SysEvent.fail ∉ (ywrite f buffer length).2.plan := by
  have h := ywrite_loop_ok f buffer length 0 hf hp (Nat.zero_le _) hb
  simpa [ywrite] using h

/-- Appending with `ywrite` at the end of a file. -/
theorem ywrite_append (f : File) (buffer : List Nat) (length : Nat)
    (hf : SysEvent.fail ∉ f.plan) (hp : f.pos = f.data.length) (hb : length = buffer.length) :
    (ywrite f buffer length).1 = (length : Nat) ∧
    (ywrite f buffer length).2.data = f.data ++ buffer ∧
    (ywrite f buffer length).2.pos = (ywrite f buffer length).2.data.length ∧
    SysEvent.fail ∉ (ywrite f buffer length).2.plan := by
  obtain ⟨h1, h2, h3, h4⟩ := ywrite_ok f buffer length hf (by omega) (by omega)
  have h2' : (ywrite f buffer length).2.data = f.data ++ buffer := by
    rw [h2, hp, hb, List.take_length, write_at_end]
  refine ⟨h1, h2', ?_, h4⟩
  rw [h3, h2', hp, hb, List.length_append]

theorem take_split (D : List Nat) (m n : Nat) (hmn : m ≤ n) :
    D.take m ++ (D.drop (D.take m).length).take (n - (D.take m).length) = D.take n := by
  have hk : (D.take m).length = min m D.length := List.length_take _ _
  have e1 : D.take (D.take m).length = D.take m := by
    have : (D.take m).take (D.take m).length = D.take m := List.take_length _
    rw [List.take_take] at this
    rw [hk] at this ⊢
    have e : min (min m D.length) m = min m D.length := by omega
    rw [e] at this
    exact this
  have e2 : n = (D.take m).length + (n - (D.take m).length) := by omega
  conv_rhs => rw [e2, List.take_add, e1]

theorem yread_arith (p L m n k : Nat) (hmn : m ≤ n) (hk : k = min m (L - p)) :
    k + min (n - k) (L - (p + k)) = min n (L - p) := by
  omega

/-- A `yread` on a descriptor whose calls do not fail returns the bytes asked for, or what
is left of the file, however the single `read` calls split them. -/
theorem yread_loop_ok (f : File) (length ret : Nat) (buffer : List Nat)
    (hf : SysEvent.fail ∉ f.plan) :
    (yread_loop f length ret buffer).1 =
      ((ret + min (length - ret) (f.data.length - f.pos) : Nat) : Int) ∧
    (yread_loop f length ret buffer).2.1 =
      buffer ++ (f.data.drop f.pos).take (length - ret) ∧
    (yread_loop f length ret buffer).2.2.pos =
      f.pos + min (length - ret) (f.data.length - f.pos) ∧
    (yread_loop f length ret buffer).2.2.data = f.data ∧
    SysEvent.fail ∉ (yread_loop f length ret buffer).2.2.plan := by
  induction f, length, ret, buffer using yread_loop.induct with
  | case1 f length ret buffer hlt r hneg =>
    exfalso
    rcases xread_cases f (length - ret) with ⟨-, -, -, -, -, h⟩ | ⟨m, -, -, h1, -⟩
    · exact head_ne_fail _ hf h
    · have h1' : r.1 = _ := h1
      omega
  | case2 f length ret buffer hlt r hneg hz =>
    rw [yread_loop, if_pos hlt]
    simp only [show (xread f (length - ret)) = r from rfl]
    rw [if_neg hneg, if_pos hz]
    rcases xread_cases f (length - ret) with
      ⟨-, -, -, -, -, h⟩ | ⟨m, hml, hm, h1, h2, h3, h4, h5⟩
    · exact absurd h (head_ne_fail _ hf)
    · have h1' : r.1 = _ := h1
      have h3' : r.2.2.pos = _ := h3
      have h4' : r.2.2.data = _ := h4
      have h5' : r.2.2.plan = _ := h5
      have hk : ((f.data.drop f.pos).take m).length = 0 := by omega
      have hav : f.data.length - f.pos = 0 := by
        simp only [List.length_take, List.length_drop] at hk
        omega
      have hnil : f.data.drop f.pos = [] := by
        apply List.eq_nil_of_length_eq_zero
        rw [List.length_drop]; exact hav
      refine ⟨by simp [hav], by simp [hnil], by simp [h3', hk, hav], h4', ?_⟩
      show SysEvent.fail ∉ r.2.2.plan
      rw [h5']; exact not_fail_tail _ hf
  | case3 f length ret buffer hlt r hneg hz ih =>
    rw [yread_loop, if_pos hlt]
    simp only [show (xread f (length - ret)) = r from rfl]
    rw [if_neg hneg, if_neg hz]
    rcases xread_cases f (length - ret) with
      ⟨-, -, -, -, -, h⟩ | ⟨m, hml, hm, h1, h2, h3, h4, h5⟩
    · exact absurd h (head_ne_fail _ hf)
    · have h1' : r.1 = _ := h1
      have h2' : r.2.1 = _ := h2
      have h3' : r.2.2.pos = _ := h3
      have h4' : r.2.2.data = _ := h4
      have h5' : r.2.2.plan = _ := h5
      have hk : ((f.data.drop f.pos).take m).length = min m (f.data.length - f.pos) := by
        simp only [List.length_take, List.length_drop]
      have hto : r.1.toNat = ((f.data.drop f.pos).take m).length := by omega
      obtain ⟨i1, i2, i3, i4, i5⟩ := ih (by rw [h5']; exact not_fail_tail _ hf)
      rw [hto] at i1 i2 i3 i4 i5
      rw [hto]
      rw [h4', h3'] at i1 i2 i3
      refine ⟨?_, ?_, ?_, by rw [i4, h4'], i5⟩
      · rw [i1]
        have a := yread_arith f.pos f.data.length m (length - ret) _ hml hk
        have e : length - (ret + ((f.data.drop f.pos).take m).length) =
            length - ret - ((f.data.drop f.pos).take m).length := by
          rw [Nat.sub_add_eq]
        rw [e, Nat.add_assoc, a]
      · rw [i2, h2', List.append_assoc]
        congr 1
        have := take_split (f.data.drop f.pos) m (length - ret) hml
        rw [List.drop_drop] at this
        rw [← this]
        congr 2
        rw [Nat.sub_add_eq]
      · rw [i3]
        have a := yread_arith f.pos f.data.length m (length - ret) _ hml hk
        have e : length - (ret + ((f.data.drop f.pos).take m).length) =
            length - ret - ((f.data.drop f.pos).take m).length := by
          rw [Nat.sub_add_eq]
        rw [e, Nat.add_assoc, a]
  | case4 f length ret buffer hlt =>
    rw [yread_loop, if_neg hlt]
    have e : length - ret = 0 := by omega
    rw [e]
    refine ⟨by simp, by simp, by simp, rfl, hf⟩

theorem yread_ok (f : File) (length : Nat) (hf : SysEvent.fail ∉ f.plan) :
    (yread f length).1 = ((min length (f.data.length - f.pos) : Nat) : Int) ∧
    (yread f length).2.1 = (f.data.drop f.pos).take length ∧
    (yread f length).2.2.pos = f.pos + min length (f.data.length - f.pos) ∧
    (yread f length).2.2.data = f.data ∧
    SysEvent.fail ∉ (yread f length).2.2.plan := by
  have h := yread_loop_ok f length 0 [] hf
  simpa [yread] using h


/-! ## `unsigned long` objects in memory -/

theorem range_four : List.range 4 = [0, 1, 2, 3] := rfl

theorem range_eight : List.range 8 = [0, 1, 2, 3, 4, 5, 6, 7] := rfl

theorem ulong_store_length (E : Env) (v : Nat) : (ulong_store E v).length = E.long_bytes := by
  unfold ulong_store
  cases E.endian <;> simp

theorem four_le_long_bytes (E : Env) : 4 ≤ E.long_bytes := by
  rcases E.long_bytes_eq with h | h <;> omega

theorem pow_literals : (2 : Nat) ^ 8 = 256 ∧ (2 : Nat) ^ 16 = 65536 ∧ (2 : Nat) ^ 24 = 16777216 ∧
    (2 : Nat) ^ 32 = 4294967296 ∧ (256 : Nat) ^ 0 = 1 ∧ (256 : Nat) ^ 1 = 256 ∧
    (256 : Nat) ^ 2 = 65536 ∧ (256 : Nat) ^ 3 = 16777216 ∧ (256 : Nat) ^ 4 = 4294967296 ∧
    (256 : Nat) ^ 5 = 1099511627776 ∧ (256 : Nat) ^ 6 = 281474976710656 ∧
    (256 : Nat) ^ 7 = 72057594037927936 := by
  norm_num

theorem four_bytes_split (b0 b1 b2 b3 : Nat) (h0 : b0 < 256) (h1 : b1 < 256)
    (h2 : b2 < 256) (h3 : b3 < 256) :
    (b0 * 16777216 + b1 * 65536 + b2 * 256 + b3) % 256 = b3 ∧
    (b0 * 16777216 + b1 * 65536 + b2 * 256 + b3) / 256 % 256 = b2 ∧
    (b0 * 16777216 + b1 * 65536 + b2 * 256 + b3) / 65536 % 256 = b1 ∧
    (b0 * 16777216 + b1 * 65536 + b2 * 256 + b3) / 16777216 % 256 = b0 := by
  refine ⟨?_, ?_, ?_, ?_⟩ <;> omega

theorem htonl_little (E : Env) (he : E.endian = Endian.little) (x : Nat) :
    htonl E x % 256 = x / 16777216 % 256 ∧ htonl E x / 256 % 256 = x / 65536 % 256 ∧
    htonl E x / 65536 % 256 = x / 256 % 256 ∧ htonl E x / 16777216 % 256 = x % 256 := by
  unfold htonl
  rw [he]
  have h := four_bytes_split (x % 256) (x / 256 % 256) (x / 65536 % 256) (x / 16777216 % 256)
    (Nat.mod_lt _ (by norm_num)) (Nat.mod_lt _ (by norm_num)) (Nat.mod_lt _ (by norm_num))
    (Nat.mod_lt _ (by norm_num))
  obtain ⟨p8, p16, p24, -⟩ := pow_literals
  simp only [p8, p16, p24]
  exact h

/-- The first four bytes of an `unsigned long` that holds `htonl(x)` are the big-endian
encoding of `x` on a little-endian host and on a host with a 4-byte `unsigned long`. -/
theorem store_htonl_take (E : Env) (h : E.endian = Endian.little ∨ E.long_bytes = 4)
    (x : Nat) : (ulong_store E (htonl E x)).take 4 = be32 x := by
  obtain ⟨p8, p16, p24, p32, q0, q1, q2, q3, -⟩ := pow_literals
  cases he : E.endian with
  | little =>
    obtain ⟨a0, a1, a2, a3⟩ := htonl_little E he x
    unfold ulong_store be32
    rw [he]
    rcases E.long_bytes_eq with hl | hl
    · simp only [hl, range_four, List.map_cons, List.map_nil, List.take, p8, p16, p24,
        q0, q1, q2, q3, Nat.div_one, a0, a1, a2, a3]
    · simp only [hl, range_eight, List.map_cons, List.map_nil, List.take, p8, p16, p24,
        q0, q1, q2, q3, Nat.div_one, a0, a1, a2, a3]
  | big =>
    rcases h with h | hl
    · rw [he] at h; cases h
    · unfold ulong_store htonl be32
      simp only [he, hl, range_four, List.map_cons, List.map_nil, List.reverse_cons,
        List.reverse_nil, List.nil_append, List.cons_append, List.take, p8, p16, p24, p32,
        q0, q1, q2, q3, Nat.div_one, List.cons.injEq, and_true]
      refine ⟨?_, ?_, ?_, ?_⟩ <;> omega

/-- On a big-endian host with an 8-byte `unsigned long` those four bytes are zero. -/
theorem store_htonl_take_big64 (E : Env) (he : E.endian = Endian.big)
    (hl : E.long_bytes = 8) (x : Nat) : (ulong_store E (htonl E x)).take 4 = [0, 0, 0, 0] := by
  obtain ⟨p8, p16, p24, p32, q0, q1, q2, q3, q4, q5, q6, q7⟩ := pow_literals
  unfold ulong_store htonl
  simp only [he, hl, range_eight, List.map_cons, List.map_nil, List.reverse_cons,
    List.reverse_nil, List.nil_append, List.cons_append, List.take, p32,
    q4, q5, q6, q7, List.cons.injEq, and_true]
  refine ⟨?_, ?_, ?_, ?_⟩ <;> omega

theorem load_store_two (E : Env) : ulong_load E (ulong_store E 2) = 2 := by
  unfold ulong_load ulong_store
  cases E.endian <;> rcases E.long_bytes_eq with hl | hl <;>
    simp [hl, range_four, range_eight]

theorem store_zero_take (E : Env) : (ulong_store E 0).take 4 = [0, 0, 0, 0] := by
  unfold ulong_store
  cases E.endian <;> rcases E.long_bytes_eq with hl | hl <;>
    simp [hl, range_four, range_eight]

/-- With a 4-byte `unsigned long` the read fills all of `datlen`. -/
theorem datlen_exact_of_four (E : Env) (h : E.long_bytes = 4) : E.datlen_exact := by
  intro k bs hb
  match bs, hb with
  | [a, b, c, d], _ =>
    unfold ulong_load host_u32
    cases E.endian <;> simp [h, range_four] <;> ring

theorem datlen_exact_toy : Env.toy.datlen_exact := by
  intro k bs hb
  match bs, hb with
  | [a, b, c, d], _ =>
    simp [ulong_load, host_u32, Env.toy, range_eight]
    ring


/-! ## The steps of the program when no call fails -/

theorem header_bytes_ok (t : Int) (s : Nat) (ht : OBJ_COMMIT ≤ t ∧ t ≤ OBJ_DELTA) :
    encode_header t s = Except.ok ((header_bytes t s).length, header_bytes t s) := by
  have hnot : ¬ (t < OBJ_COMMIT ∨ t > OBJ_DELTA) := by
    simp only [OBJ_COMMIT, OBJ_DELTA] at ht ⊢; omega
  obtain ⟨ht1, ht8, htc⟩ := type_toNat_lt t ht
  have hr : s &&& 15 < 16 := by rw [and_15_eq_mod]; omega
  obtain ⟨hc, -⟩ := first_byte_bits t.toNat ht8 (s &&& 15) hr
  obtain ⟨k, h1, h2, -⟩ :=
    encode_header_loop_spec (((t.toNat <<< 4) ||| (s &&& 15)) % 256) (s >>> 4) 1 hc
  simp only [header_bytes, encode_header_ok t s ht]
  rw [h1, h2, Nat.add_comm]

/-- The first header byte exists and carries the type in bits 4-6. -/
theorem header_bytes_kind (t : Int) (s : Nat) (ht : OBJ_COMMIT ≤ t ∧ t ≤ OBJ_DELTA)
    (rest : List Nat) :
    (((header_bytes t s ++ rest).getD 0 0 >>> 4) &&& 7 : Nat) = t.toNat := by
  obtain ⟨ht1, ht8, htc⟩ := type_toNat_lt t ht
  have hr : s &&& 15 < 16 := by rw [and_15_eq_mod]; omega
  obtain ⟨hc, f1, -, f3, -⟩ := first_byte_bits t.toNat ht8 (s &&& 15) hr
  obtain ⟨k, h1, h2, -, -, h5, -⟩ :=
    encode_header_loop_spec (((t.toNat <<< 4) ||| (s &&& 15)) % 256) (s >>> 4) 1 hc
  simp only [header_bytes, encode_header_ok t s ht]
  have hpos : 0 < (encode_header_loop (((t.toNat <<< 4) ||| (s &&& 15)) % 256)
      (s >>> 4) 1).1.length := by omega
  rw [List.getD_append _ _ _ _ hpos, h5]
  split
  · exact f1
  · exact f3

theorem write_blob_eq (E : Env) (st : State) (dat : List Nat) (datlen : Nat) :
    write_blob E st dat datlen =
      match chosen_delta E st dat datlen with
      | some delta =>
        match encode_header OBJ_DELTA delta.length with
        | Except.error e => Except.error e
        | Except.ok (hdrlen, hdr) =>
          if (ywrite st.packfd hdr hdrlen).1 ≠ hdrlen then
            Except.error (Fault.die "Can't write object header") else
          if (ywrite (ywrite st.packfd hdr hdrlen).2 st.lastsha1 20).1 ≠ 20 then
            Except.error (Fault.die "Can't write object base") else
          if (ywrite (ywrite (ywrite st.packfd hdr hdrlen).2 st.lastsha1 20).2
              (E.deflate (delta.take delta.length))
              (E.deflate (delta.take delta.length)).length).1 ≠
              (E.deflate (delta.take delta.length)).length then
            Except.error (Fault.die "Failed writing compressed data") else
          Except.ok { st with
            current_depth := st.current_depth + 1
            packfd := (ywrite (ywrite (ywrite st.packfd hdr hdrlen).2 st.lastsha1 20).2
              (E.deflate (delta.take delta.length))
              (E.deflate (delta.take delta.length)).length).2 }
      | none =>
        match encode_header OBJ_BLOB datlen with
        | Except.error e => Except.error e
        | Except.ok (hdrlen, hdr) =>
          if (ywrite st.packfd hdr hdrlen).1 ≠ hdrlen then
            Except.error (Fault.die "Can't write object header") else
          if (ywrite (ywrite st.packfd hdr hdrlen).2 (E.deflate (dat.take datlen))
              (E.deflate (dat.take datlen)).length).1 ≠ (E.deflate (dat.take datlen)).length then
            Except.error (Fault.die "Failed writing compressed data") else
          Except.ok { st with
            current_depth := 0
            packfd := (ywrite (ywrite st.packfd hdr hdrlen).2 (E.deflate (dat.take datlen))
              (E.deflate (dat.take datlen)).length).2 } := by
  rfl

/-- The function `write_blob` on a pack file positioned at its end, when no call fails: the record is
appended and only `current_depth` and the pack file change. -/
theorem write_blob_ok (E : Env) (st : State) (dat : List Nat) (datlen : Nat)
    (hf : SysEvent.fail ∉ st.packfd.plan) (hp : st.packfd.pos = st.packfd.data.length)
    (hs : st.lastsha1.length = 20) :
    ∃ st', write_blob E st dat datlen = Except.ok st' ∧
      st'.packfd.data = st.packfd.data ++ blob_record E st dat datlen ∧
      st'.packfd.pos = st'.packfd.data.length ∧
      SysEvent.fail ∉ st'.packfd.plan ∧
      st'.current_depth = (if (chosen_delta E st dat datlen).isSome then
        st.current_depth + 1 else 0) ∧
      st'.object_count = st.object_count ∧ st'.lastdat = st.lastdat ∧
      st'.lastdatlen = st.lastdatlen ∧ st'.lastsha1 = st.lastsha1 ∧ st'.stdout = st.stdout := by
  rw [write_blob_eq]
  unfold blob_record
  cases hd : chosen_delta E st dat datlen with
  | some delta =>
    simp only [header_bytes_ok OBJ_DELTA delta.length (by decide)]
    obtain ⟨a1, a2, a3, a4⟩ := ywrite_append st.packfd (header_bytes OBJ_DELTA delta.length)
      (header_bytes OBJ_DELTA delta.length).length hf hp rfl
    obtain ⟨b1, b2, b3, b4⟩ := ywrite_append _ st.lastsha1 20 a4 a3 hs.symm
    obtain ⟨c1, c2, c3, c4⟩ := ywrite_append _ (E.deflate (delta.take delta.length))
      (E.deflate (delta.take delta.length)).length b4 b3 rfl
    rw [if_neg (by rw [a1]; simp), if_neg (by rw [b1]; simp), if_neg (by rw [c1]; simp)]
    refine ⟨_, rfl, ?_, c3, c4, by simp, rfl, rfl, rfl, rfl, rfl⟩
    simp only [List.take_length] at c2 ⊢
    simp only [c2, b2, a2, List.append_assoc]
  | none =>
    simp only [header_bytes_ok OBJ_BLOB datlen (by decide)]
    obtain ⟨a1, a2, a3, a4⟩ := ywrite_append st.packfd (header_bytes OBJ_BLOB datlen)
      (header_bytes OBJ_BLOB datlen).length hf hp rfl
    obtain ⟨c1, c2, c3, c4⟩ := ywrite_append _ (E.deflate (dat.take datlen))
      (E.deflate (dat.take datlen)).length a4 a3 rfl
    rw [if_neg (by rw [a1]; simp), if_neg (by rw [c1]; simp)]
    refine ⟨_, rfl, ?_, c3, c4, by simp, rfl, rfl, rfl, rfl, rfl⟩
    simp only [c2, a2, List.append_assoc]


theorem blob_digest_eq (E : Env) (dat : List Nat) :
    SHA1_Final E (SHA1_Update (SHA1_Update SHA1_Init (sprintf_blob dat.length).1
      ((sprintf_blob dat.length).2 + 1)) dat dat.length) = E.SHA1 (blob_hash_input dat) := by
  simp only [SHA1_Final, SHA1_Update, SHA1_Init, sprintf_blob, blob_hash_input,
    List.nil_append, List.take_length]
  congr 1
  have e : ([98, 108, 111, 98, 32] ++ decimal dat.length).length + 1 =
      ([98, 108, 111, 98, 32] ++ decimal dat.length ++ [0]).length := by simp
  rw [e, List.take_length]

/-- The loop body of `main` in the streaming phase. -/
theorem main_body_ok (E : Env) (st : State) (dat : List Nat) (h : Streaming st) :
    ∃ st', main_body E st dat dat.length = Except.ok st' ∧ Streaming st' ∧
      st'.packfd.data = st.packfd.data ++ blob_record E st dat dat.length ∧
      st'.current_depth = (if (chosen_delta E st dat dat.length).isSome then
        st.current_depth + 1 else 0) ∧
      st'.object_count = st.object_count + 1 ∧ st'.lastdat = some dat ∧
      st'.lastdatlen = dat.length ∧ st'.lastsha1 = E.SHA1 (blob_hash_input dat) ∧
      st'.stdout = st.stdout ++ [sha1_to_hex (E.SHA1 (blob_hash_input dat)) ++ [10]] := by
  obtain ⟨hf, hp, hs⟩ := h
  obtain ⟨st1, w, w1, w2, w3, w4, w5, w6, w7, w8, w9⟩ :=
    write_blob_ok E st dat dat.length hf hp hs
  have ht : (E.SHA1 (blob_hash_input dat)).take 20 = E.SHA1 (blob_hash_input dat) :=
    List.take_of_length_le (by rw [E.sha1_length])
  simp only [main_body, w, blob_digest_eq, ht]
  refine ⟨_, rfl, ⟨w3, w2, E.sha1_length _⟩, w1, w4, by simp [w5], rfl, rfl, rfl, by simp [w9]⟩

/-- Appending the first `length` bytes of a buffer with `ywrite` at the end of a file. -/
theorem ywrite_append_take (f : File) (buffer : List Nat) (length : Nat)
    (hf : SysEvent.fail ∉ f.plan) (hp : f.pos = f.data.length) (hb : length ≤ buffer.length) :
    (ywrite f buffer length).1 = (length : Nat) ∧
    (ywrite f buffer length).2.data = f.data ++ buffer.take length ∧
    (ywrite f buffer length).2.pos = (ywrite f buffer length).2.data.length ∧
    SysEvent.fail ∉ (ywrite f buffer length).2.plan := by
  obtain ⟨h1, h2, h3, h4⟩ := ywrite_ok f buffer length hf (by omega) hb
  have h2' : (ywrite f buffer length).2.data = f.data ++ buffer.take length := by
    rw [h2, hp, write_at_end]
  refine ⟨h1, h2', ?_, h4⟩
  rw [h3, h2', hp, List.length_append, List.length_take]
  omega

/-- The function `init_pack_header` when no call fails, on every host: the 12 bytes written
are the magic, the first four bytes of the stored `htonl(2)`, and four zero bytes. -/
theorem init_pack_header_ok (E : Env) (plan : List SysEvent) (hf : SysEvent.fail ∉ plan) :
    ∃ st, init_pack_header E (State.start plan) = Except.ok st ∧ Streaming st ∧
      st.packfd.data = [80, 65, 67, 75] ++ (ulong_store E (htonl E 2)).take 4 ++ [0, 0, 0, 0] ∧
      st.current_depth = 0 ∧ st.object_count = 0 ∧ st.lastdat = none ∧ st.stdout = [] := by
  have hf0 : SysEvent.fail ∉ (State.start plan).packfd.plan := hf
  have h4 := four_le_long_bytes E
  obtain ⟨a1, a2, a3, a4⟩ := ywrite_append (State.start plan).packfd [80, 65, 67, 75] 4
    hf0 rfl rfl
  obtain ⟨b1, b2, b3, b4⟩ := ywrite_append_take _
    (ulong_store E (htonl E (ulong_load E (ulong_store E 2)))) 4 a4 a3
    (by rw [ulong_store_length]; exact h4)
  obtain ⟨c1, c2, c3, c4⟩ := ywrite_append_take _ (ulong_store E 0) 4 b4 b3
    (by rw [ulong_store_length]; exact h4)
  simp only [init_pack_header]
  rw [if_neg (by rw [a1]; simp), if_neg (by rw [b1]; simp), if_neg (by rw [c1]; simp)]
  refine ⟨_, rfl, ⟨c4, c3, by simp [State.start]⟩, ?_, rfl, rfl, rfl, rfl⟩
  simp only [c2, b2, a2]
  simp only [load_store_two, store_zero_take]
  simp [State.start]

theorem init_pack_header_length (E : Env) :
    ([80, 65, 67, 75] ++ (ulong_store E (htonl E 2)).take 4 ++ [0, 0, 0, 0]).length = 12 := by
  have h4 := four_le_long_bytes E
  simp only [List.length_append, List.length_take, ulong_store_length, List.length_cons,
    List.length_nil]
  omega

theorem size_t_of_small (bits k : Nat) (hb : 32 ≤ bits) (hk : k ≤ 128 * 1024) :
    size_t_of bits (k : Int) = k := by
  have h2 : (2 : Nat) ^ 32 ≤ 2 ^ bits := Nat.pow_le_pow_right (by norm_num) hb
  have hlt : k < 2 ^ bits := by
    have : (2 : Nat) ^ 32 = 4294967296 := by norm_num
    omega
  unfold size_t_of
  have e : ((k : Int) % 2 ^ bits) = ((k % 2 ^ bits : Nat) : Int) := by
    push_cast; rfl
  rw [e, Nat.mod_eq_of_lt hlt]
  simp

theorem take_append_drop_length (D : List Nat) (m : Nat) :
    D.take m ++ D.drop (D.take m).length = D := by
  have e : D.take (D.take m).length = D.take m := by
    have h1 : (D.take m).take (D.take m).length = D.take m := List.take_length _
    rw [List.take_take] at h1
    have e : min (D.take m).length m = (D.take m).length := by
      rw [List.length_take]; omega
    rw [e] at h1
    exact h1
  have h2 := List.take_append_drop (D.take m).length D
  rw [e] at h2
  exact h2

/-- The read-back loop of the finalizer, when no call fails: it feeds the rest of the file
to the digest and stops at the end of the file. -/
theorem fixup_loop_ok (bits : Nat) (f : File) (c : List Nat) (hb : 32 ≤ bits)
    (hf : SysEvent.fail ∉ f.plan) (hp : f.pos ≤ f.data.length) :
    ∃ f', fixup_loop bits f c = Except.ok (c ++ f.data.drop f.pos, f') ∧
      f'.data = f.data ∧ f'.pos = f.data.length ∧ SysEvent.fail ∉ f'.plan := by
  induction f, c using fixup_loop.induct bits with
  | case1 f c r n hn =>
    rw [fixup_loop]
    simp only [show xread f (128 * 1024) = r from rfl, show size_t_of bits r.1 = n from rfl]
    rw [if_pos hn]
    rcases xread_cases f (128 * 1024) with
      ⟨-, -, -, -, -, h⟩ | ⟨m, hml, hm, h1, h2, h3, h4, h5⟩
    · exact absurd h (head_ne_fail _ hf)
    · have h1' : r.1 = _ := h1
      have h3' : r.2.2.pos = _ := h3
      have hk : ((f.data.drop f.pos).take m).length ≤ 128 * 1024 := by
        simp only [List.length_take, List.length_drop]; omega
      have hn' : size_t_of bits r.1 = ((f.data.drop f.pos).take m).length := by
        rw [h1']; exact size_t_of_small bits _ hb hk
      have hn0 : ((f.data.drop f.pos).take m).length = 0 := by
        have : n = _ := hn'
        omega
      have hav : f.data.length - f.pos = 0 := by
        simp only [List.length_take, List.length_drop] at hn0
        omega
      have hnil : f.data.drop f.pos = [] := by
        apply List.eq_nil_of_length_eq_zero
        rw [List.length_drop]; exact hav
      refine ⟨r.2.2, by rw [hnil, List.append_nil], h4, ?_, ?_⟩
      · rw [h3', hn0]; omega
      · show SysEvent.fail ∉ r.2.2.plan
        rw [show r.2.2.plan = _ from h5]; exact not_fail_tail _ hf
  | case2 f c r n hn hbig =>
    exfalso
    rcases xread_cases f (128 * 1024) with
      ⟨-, -, -, -, -, h⟩ | ⟨m, hml, hm, h1, h2, h3, h4, h5⟩
    · exact absurd h (head_ne_fail _ hf)
    · have h1' : r.1 = _ := h1
      have hk : ((f.data.drop f.pos).take m).length ≤ 128 * 1024 := by
        simp only [List.length_take, List.length_drop]; omega
      have hn' : size_t_of bits r.1 = ((f.data.drop f.pos).take m).length := by
        rw [h1']; exact size_t_of_small bits _ hb hk
      have : n = _ := hn'
      omega
  | case3 f c r n hn hbig ih =>
    rw [fixup_loop]
    simp only [show xread f (128 * 1024) = r from rfl, show size_t_of bits r.1 = n from rfl]
    rw [if_neg hn, if_neg hbig]
    rcases xread_cases f (128 * 1024) with
      ⟨-, -, -, -, -, h⟩ | ⟨m, hml, hm, h1, h2, h3, h4, h5⟩
    · exact absurd h (head_ne_fail _ hf)
    · have h1' : r.1 = _ := h1
      have h2' : r.2.1 = _ := h2
      have h3' : r.2.2.pos = _ := h3
      have h4' : r.2.2.data = _ := h4
      have hk : ((f.data.drop f.pos).take m).length ≤ 128 * 1024 := by
        simp only [List.length_take, List.length_drop]; omega
      have hk2 : ((f.data.drop f.pos).take m).length ≤ f.data.length - f.pos := by
        simp only [List.length_take, List.length_drop]; omega
      have hn' : n = ((f.data.drop f.pos).take m).length := by
        show size_t_of bits r.1 = _
        rw [h1']; exact size_t_of_small bits _ hb hk
      obtain ⟨f', i1, i2, i3, i4⟩ := ih
        (by rw [show r.2.2.plan = _ from h5]; exact not_fail_tail _ hf)
        (by rw [h3', h4']; omega)
      refine ⟨f', ?_, by rw [i2, h4'], by rw [i3, h4'], i4⟩
      rw [i1, h4', h3', h2', hn']
      unfold SHA1_Update
      rw [List.take_length, List.append_assoc]
      have e : f.data.drop (f.pos + ((f.data.drop f.pos).take m).length) =
          (f.data.drop f.pos).drop ((f.data.drop f.pos).take m).length := by
        rw [List.drop_drop]
      rw [e, take_append_drop_length]


theorem count_bytes_length (E : Env) (x : Nat) :
    ((ulong_store E (htonl E x)).take 4).length = 4 := by
  have h4 := four_le_long_bytes E
  rw [List.length_take, ulong_store_length]
  omega

/-- The finalizer on a pack file of at least 12 bytes, when no call fails, on every host:
the first four bytes of the stored `htonl(object_count)` are patched into bytes 8..11 and
the digest of everything before it is appended. -/
theorem fixup_header_footer_ok (E : Env) (st : State) (hf : SysEvent.fail ∉ st.packfd.plan)
    (hl : 12 ≤ st.packfd.data.length) :
    ∃ st', fixup_header_footer E st = Except.ok st' ∧
      st'.packfd.data =
        (st.packfd.data.take 8 ++ (ulong_store E (htonl E st.object_count)).take 4 ++
          st.packfd.data.drop 12) ++
        E.SHA1 (st.packfd.data.take 8 ++ (ulong_store E (htonl E st.object_count)).take 4 ++
          st.packfd.data.drop 12) ∧
      st'.object_count = st.object_count ∧ st'.current_depth = st.current_depth ∧
      st'.lastdat = st.lastdat ∧ st'.lastdatlen = st.lastdatlen ∧
      st'.lastsha1 = st.lastsha1 ∧ st'.stdout = st.stdout := by
  have hf0 : SysEvent.fail ∉ (lseek_set st.packfd 0).2.plan := hf
  have h4 := four_le_long_bytes E
  have hc4 := count_bytes_length E st.object_count
  obtain ⟨a1, a2, a3, a4, a5⟩ := yread_ok (lseek_set st.packfd 0).2 8 hf0
  have hd0 : (lseek_set st.packfd 0).2.data = st.packfd.data := rfl
  have hp0 : (lseek_set st.packfd 0).2.pos = 0 := rfl
  rw [hd0, hp0] at a1 a2 a3
  have hm : min 8 (st.packfd.data.length - 0) = 8 := by omega
  rw [hm] at a1 a3
  rw [hd0] at a4
  simp only [List.drop_zero, Nat.zero_add] at a2 a3
  obtain ⟨b1, b2, b3, b4⟩ := ywrite_ok (yread (lseek_set st.packfd 0).2 8).2.2
    (ulong_store E (htonl E st.object_count)) 4 a5 (by rw [a3, a4]; omega)
    (by rw [ulong_store_length]; exact h4)
  rw [a3, a4] at b2
  rw [a3] at b3
  rw [write_at_of_le _ _ _ (by omega), hc4] at b2
  generalize hcnt : (ulong_store E (htonl E st.object_count)).take 4 = cnt at *
  have hlen : (st.packfd.data.take 8 ++ cnt ++
      st.packfd.data.drop 12).length = st.packfd.data.length := by
    simp only [List.length_append, List.length_take, List.length_drop, hc4]
    omega
  obtain ⟨f', c1, c2, c3, c4⟩ := fixup_loop_ok E.size_bits
    (ywrite (yread (lseek_set st.packfd 0).2 8).2.2 (ulong_store E (htonl E st.object_count))
      4).2
    (SHA1_Update (SHA1_Update SHA1_Init (yread (lseek_set st.packfd 0).2 8).2.1 8)
      (ulong_store E (htonl E st.object_count)) 4)
    E.size_bits_ge b4 (by rw [b3, b2, hlen]; omega)
  rw [b2, b3] at c1
  rw [b2] at c2 c3
  have hdrop : (st.packfd.data.take 8 ++ cnt ++
      st.packfd.data.drop 12).drop 12 = st.packfd.data.drop 12 := by
    rw [List.drop_append_of_le_length (by simp [hc4]; omega)]
    rw [List.drop_of_length_le (by simp [hc4])]
    simp
  have hctx : SHA1_Update (SHA1_Update SHA1_Init (yread (lseek_set st.packfd 0).2 8).2.1 8)
      (ulong_store E (htonl E st.object_count)) 4 = st.packfd.data.take 8 ++ cnt := by
    rw [a2]
    simp only [SHA1_Update, SHA1_Init, List.nil_append, List.take_take, hcnt]
    rfl
  rw [hctx, show 8 + 4 = 12 from rfl, hdrop] at c1
  obtain ⟨d1, d2, d3, d4⟩ := ywrite_append f'
    (SHA1_Final E (st.packfd.data.take 8 ++ cnt ++ st.packfd.data.drop 12))
    20 c4 (by rw [c3, c2]) (by simp [SHA1_Final, E.sha1_length])
  rw [c2] at d2
  simp only [fixup_header_footer]
  rw [if_neg (by simp [lseek_set]), if_neg (by rw [a1]; simp), if_neg (by rw [b1]; simp), hctx,
    c1]
  simp only []
  rw [if_neg (by rw [d1]; simp)]
  exact ⟨_, rfl, d2, rfl, rfl, rfl, rfl, rfl, rfl⟩

theorem complete_records_short (e : Endian) (data : List Nat) (h : ¬ 4 ≤ data.length) :
    complete_records e data = [] := by
  rw [complete_records, if_neg h]

theorem complete_records_cut (e : Endian) (data : List Nat) (h : 4 ≤ data.length)
    (h2 : ¬ host_u32 e (data.take 4) ≤ data.length - 4) :
    complete_records e data = [] := by
  rw [complete_records, if_pos h, if_neg h2]

theorem complete_records_cons (e : Endian) (data : List Nat) (h : 4 ≤ data.length)
    (h2 : host_u32 e (data.take 4) ≤ data.length - 4) :
    complete_records e data = (data.drop 4).take (host_u32 e (data.take 4)) ::
      complete_records e (data.drop (4 + host_u32 e (data.take 4))) := by
  rw [complete_records, if_pos h, if_pos h2]

/-- The buffer filled by `yread_loop` holds as many bytes as the count it returns. -/
theorem yread_loop_length (f : File) (length ret : Nat) (buffer : List Nat) :
    buffer.length = ret → 0 ≤ (yread_loop f length ret buffer).1 →
      ((yread_loop f length ret buffer).2.1.length : Int) =
        (yread_loop f length ret buffer).1 := by
  induction f, length, ret, buffer using yread_loop.induct with
  | case1 f length ret buffer hlt r hneg =>
    intro _ h0
    rw [yread_loop, if_pos hlt] at h0
    simp only [show (xread f (length - ret)) = r from rfl] at h0
    rw [if_pos hneg] at h0
    exact absurd h0 (not_le.mpr hneg)
  | case2 f length ret buffer hlt r hneg hz =>
    intro hb _
    rw [yread_loop, if_pos hlt]
    simp only [show (xread f (length - ret)) = r from rfl]
    rw [if_neg hneg, if_pos hz]
    simp [hb]
  | case3 f length ret buffer hlt r hneg hz ih =>
    intro hb h0
    rw [yread_loop, if_pos hlt] at h0 ⊢
    simp only [show (xread f (length - ret)) = r from rfl] at h0 ⊢
    rw [if_neg hneg, if_neg hz] at h0 ⊢
    refine ih ?_ h0
    have hr : r.1 = (xread f (length - ret)).1 := rfl
    have hr2 : r.2.1 = (xread f (length - ret)).2.1 := rfl
    rcases xread_cases f (length - ret) with ⟨h1, -⟩ | ⟨m, -, -, h1, h2, -⟩
    · rw [← hr] at h1
      rw [h1] at hneg
      exact absurd (by decide) hneg
    · rw [List.length_append, hb, hr2, h2, hr, h1, Int.toNat_ofNat]
  | case4 f length ret buffer hlt =>
    intro hb _
    rw [yread_loop, if_neg hlt]
    simp [hb]

/-- The buffer holds `length` bytes when `yread` returns `length`, whatever the reads did. -/
theorem yread_length (f : File) (length : Nat) (h : (yread f length).1 = (length : Nat)) :
    (yread f length).2.1.length = length := by
  have h1 := yread_loop_length f length 0 [] rfl (by
    have h0 : (yread_loop f length 0 []).1 = (length : Nat) := h
    rw [h0]
    exact Int.natCast_nonneg _)
  have h0 : (yread_loop f length 0 []).1 = (length : Nat) := h
  rw [h0] at h1
  have h2 : ((yread f length).2.1.length : Int) = (length : Nat) := h1
  exact_mod_cast h2

/-- The first read of one iteration of the loop of `main`, when no read fails. -/
theorem main_read_four (stdin : File) (hf : SysEvent.fail ∉ stdin.plan) :
    (yread stdin 4).1 = 4 ↔ 4 ≤ (stdin.data.drop stdin.pos).length := by
  obtain ⟨a1, -⟩ := yread_ok stdin 4 hf
  rw [a1, List.length_drop]
  constructor
  · intro h; have : min 4 (stdin.data.length - stdin.pos) = 4 := by exact_mod_cast h
    omega
  · intro h; have : min 4 (stdin.data.length - stdin.pos) = 4 := by omega
    rw [this]; rfl

/-- The second read of one iteration of the loop of `main`, when no read fails and the
length `D` it asks for is the number held in the four bytes of the first. -/
theorem main_reads (e : Endian) (stdin : File) (hf : SysEvent.fail ∉ stdin.plan) (D : Nat)
    (h4 : 4 ≤ (stdin.data.drop stdin.pos).length)
    (hD : D = host_u32 e ((stdin.data.drop stdin.pos).take 4)) :
    ((yread (yread stdin 4).2.2 D).1 = (D : Nat) ↔
      host_u32 e ((stdin.data.drop stdin.pos).take 4) ≤
        (stdin.data.drop stdin.pos).length - 4) ∧
    (host_u32 e ((stdin.data.drop stdin.pos).take 4) ≤
        (stdin.data.drop stdin.pos).length - 4 →
      (yread (yread stdin 4).2.2 D).2.1 =
        ((stdin.data.drop stdin.pos).drop 4).take
          (host_u32 e ((stdin.data.drop stdin.pos).take 4)) ∧
      (((stdin.data.drop stdin.pos).drop 4).take
          (host_u32 e ((stdin.data.drop stdin.pos).take 4))).length =
        host_u32 e ((stdin.data.drop stdin.pos).take 4) ∧
      (yread (yread stdin 4).2.2 D).2.2.data.drop (yread (yread stdin 4).2.2 D).2.2.pos =
        (stdin.data.drop stdin.pos).drop
          (4 + host_u32 e ((stdin.data.drop stdin.pos).take 4)) ∧
      SysEvent.fail ∉ (yread (yread stdin 4).2.2 D).2.2.plan) := by
  obtain ⟨a1, a2, a3, a4, a5⟩ := yread_ok stdin 4 hf
  obtain ⟨b1, b2, b3, b4, b5⟩ := yread_ok (yread stdin 4).2.2 D a5
  rw [a4, a3] at b1 b2 b3
  rw [a4] at b4
  have hlen : (stdin.data.drop stdin.pos).length = stdin.data.length - stdin.pos :=
    List.length_drop _ _
  rw [hlen] at h4 ⊢
  rw [← hD]
  have h4m : min 4 (stdin.data.length - stdin.pos) = 4 := by omega
  rw [h4m] at b1 b2 b3
  refine ⟨?_, fun hL => ⟨?_, ?_, ?_, b5⟩⟩
  · rw [b1]
    constructor
    · intro h
      have : min D (stdin.data.length - (stdin.pos + 4)) = D := by exact_mod_cast h
      omega
    · intro h
      have : min D (stdin.data.length - (stdin.pos + 4)) = D := by omega
      rw [this]
  · rw [b2, List.drop_drop]
  · simp only [List.length_take, List.length_drop]
    omega
  · have hm : min D (stdin.data.length - (stdin.pos + 4)) = D := by omega
    rw [b4, b3, hm, List.drop_drop]
    congr 1
    omega

/-- The length `main` uses for a record is the number in the four bytes read, on a host
where the rest of `datlen` does not count. -/
theorem main_datlen (E : Env) (hx : E.datlen_exact) (stdin : File)
    (hf : SysEvent.fail ∉ stdin.plan) (k : Nat) (h4 : (yread stdin 4).1 = 4) :
    ulong_load E ((yread stdin 4).2.1 ++ (E.indeterminate k).drop 4) =
      host_u32 E.endian ((stdin.data.drop stdin.pos).take 4) := by
  rw [hx k _ (yread_length stdin 4 h4), (yread_ok stdin 4 hf).2.1]

/-- The loop of `main`, when no read fails, every allocation succeeds and `datlen` is the
number in the four bytes read, runs the loop body on the complete records of the rest of
standard input, in order, and on nothing else. -/
theorem main_loop_eq (E : Env) (hx : E.datlen_exact) (ha : ∀ n, E.xmalloc_ok n = true)
    (stdin : File) (st : State) (hf : SysEvent.fail ∉ stdin.plan) :
    main_loop E stdin st =
      (import_blobs E st (complete_records E.endian (stdin.data.drop stdin.pos))).map
        Prod.fst := by
  induction stdin, st using main_loop.induct E with
  | case1 stdin st r1 h1 =>
    rw [main_loop]
    simp only [show yread stdin 4 = r1 from rfl]
    rw [if_pos h1]
    have a := main_read_four stdin hf
    rw [complete_records_short _ _ (fun h => h1 (a.2 h))]
    rfl
  | case2 stdin st datlen0 r1 h1 datlen hm =>
    rw [ha] at hm
    exact absurd hm (by decide)
  | case3 stdin st datlen0 r1 h1 datlen hm r2 h2 =>
    rw [main_loop]
    simp only [show E.indeterminate st.object_count = datlen0 from rfl,
      show yread stdin 4 = r1 from rfl,
      show ulong_load E (r1.2.1 ++ datlen0.drop 4) = datlen from rfl,
      show yread r1.2.2 datlen = r2 from rfl]
    rw [if_neg h1, if_neg hm, if_pos h2]
    have hd : datlen = _ := main_datlen E hx stdin hf st.object_count (not_not.mp h1)
    have h4 := (main_read_four stdin hf).1 (not_not.mp h1)
    obtain ⟨b2, -⟩ := main_reads E.endian stdin hf datlen h4 hd
    rw [complete_records_cut _ _ h4 (fun h => h2 (b2.2 h))]
    rfl
  | case4 stdin st datlen0 r1 h1 datlen hm r2 h2 e hb =>
    rw [main_loop]
    simp only [show E.indeterminate st.object_count = datlen0 from rfl,
      show yread stdin 4 = r1 from rfl,
      show ulong_load E (r1.2.1 ++ datlen0.drop 4) = datlen from rfl,
      show yread r1.2.2 datlen = r2 from rfl]
    rw [if_neg h1, if_neg hm, if_neg h2]
    have hd : datlen = _ := main_datlen E hx stdin hf st.object_count (not_not.mp h1)
    have h4 := (main_read_four stdin hf).1 (not_not.mp h1)
    obtain ⟨b2, b3⟩ := main_reads E.endian stdin hf datlen h4 hd
    have hL := b2.1 (not_not.mp h2)
    obtain ⟨c1, c2, c3, c4⟩ := b3 hL
    have c1' : r2.2.1 = _ := c1
    rw [complete_records_cons _ _ h4 hL]
    simp only [import_blobs, c2]
    rw [← c1', ← hd, hb]
    rfl
  | case5 stdin st datlen0 r1 h1 datlen hm r2 h2 st' hb ih =>
    rw [main_loop]
    simp only [show E.indeterminate st.object_count = datlen0 from rfl,
      show yread stdin 4 = r1 from rfl,
      show ulong_load E (r1.2.1 ++ datlen0.drop 4) = datlen from rfl,
      show yread r1.2.2 datlen = r2 from rfl]
    rw [if_neg h1, if_neg hm, if_neg h2]
    have hd : datlen = _ := main_datlen E hx stdin hf st.object_count (not_not.mp h1)
    have h4 := (main_read_four stdin hf).1 (not_not.mp h1)
    obtain ⟨b2, b3⟩ := main_reads E.endian stdin hf datlen h4 hd
    have hL := b2.1 (not_not.mp h2)
    obtain ⟨c1, c2, c3, c4⟩ := b3 hL
    have c1' : r2.2.1 = _ := c1
    have c3' : r2.2.2.data.drop r2.2.2.pos = _ := c3
    rw [complete_records_cons _ _ h4 hL]
    simp only [import_blobs, c2]
    rw [← c1', ← hd, hb]
    simp only []
    rw [ih c4, c3', ← hd]
    generalize import_blobs E st' (complete_records E.endian
      ((stdin.data.drop stdin.pos).drop (4 + datlen))) = res
    cases res <;> rfl

/-! ## Runs of the loop body -/

theorem chosen_delta_depth (E : Env) (st : State) (dat : List Nat) (n : Nat)
    (h : (chosen_delta E st dat n).isSome) : st.current_depth < max_depth := by
  unfold chosen_delta at h
  split at h
  · split at h
    · assumption
    · simp at h
  · simp at h

theorem blob_record_kind (E : Env) (st : State) (dat : List Nat) (n : Nat) (pre : List Nat) :
    ((((pre ++ blob_record E st dat n).getD pre.length 0 >>> 4) &&& 7 : Nat) : Int) =
      if (chosen_delta E st dat n).isSome then OBJ_DELTA else OBJ_BLOB := by
  have e : (pre ++ blob_record E st dat n).getD pre.length 0 =
      (blob_record E st dat n).getD 0 0 := by
    rw [List.getD_append_right _ _ _ _ (le_refl _), Nat.sub_self]
  rw [e]
  unfold blob_record
  cases chosen_delta E st dat n with
  | some delta =>
    simp only [Option.isSome_some, if_true, List.append_assoc]
    rw [header_bytes_kind OBJ_DELTA _ (by decide)]
    rfl
  | none =>
    simp only [Option.isSome_none, Bool.false_eq_true, if_false]
    rw [header_bytes_kind OBJ_BLOB _ (by decide)]
    rfl

/-- The loop body run over a list of blobs from a streaming state, when no call fails. -/
theorem import_blobs_ok (E : Env) (blobs : List (List Nat)) :
    ∀ st, Streaming st →
      ∃ st' ks, import_blobs E st blobs = Except.ok (st', ks) ∧ Streaming st' ∧
        ks.length = blobs.length ∧
        st'.object_count = st.object_count + blobs.length ∧
        (∃ R, st'.packfd.data = st.packfd.data ++ R ∧ (blobs = [] → R = [])) ∧
        st'.stdout = st.stdout ++
          blobs.map (fun b => sha1_to_hex (E.SHA1 (blob_hash_input b)) ++ [10]) ∧
        chain_ok st.current_depth ks ∧
        st'.current_depth = chain_depth st.current_depth ks := by
  induction blobs with
  | nil =>
    intro st hst
    exact ⟨st, [], rfl, hst, rfl, rfl, ⟨[], by simp, fun _ => rfl⟩, by simp, trivial, rfl⟩
  | cons b rest ih =>
    intro st hst
    obtain ⟨st1, m1, m2, m3, m4, m5, m6, m7, m8, m9⟩ := main_body_ok E st b hst
    obtain ⟨st2, ks, i1, i2, i3, i4, ⟨R, i5, -⟩, i6, i7, i8⟩ := ih st1 m2
    have hk : ((written_kind st st1 : Nat) : Int) =
        if (chosen_delta E st b b.length).isSome then OBJ_DELTA else OBJ_BLOB := by
      unfold written_kind
      rw [m3]
      exact blob_record_kind E st b b.length st.packfd.data
    have hstep : kind_step st.current_depth (written_kind st st1) = st1.current_depth := by
      unfold kind_step
      rw [hk, m4]
      cases (chosen_delta E st b b.length).isSome <;> simp [OBJ_DELTA, OBJ_BLOB]
    refine ⟨st2, written_kind st st1 :: ks, ?_, i2, by simp [i3], by rw [i4, m5]; simp; omega,
      ⟨blob_record E st b b.length ++ R, by rw [i5, m3, List.append_assoc], by simp⟩,
      by rw [i6, m9]; simp, ⟨?_, by rw [hstep]; exact i7⟩, by
        simp only [chain_depth]; rw [hstep]; exact i8⟩
    · simp only [import_blobs, m1, i1]
    · rw [hk]
      cases hd : (chosen_delta E st b b.length).isSome with
      | true => left; exact ⟨by simp, chosen_delta_depth E st b b.length hd⟩
      | false => right; simp


/-! ## Chains of record kinds -/

theorem chain_depth_append (d : Int) (a b : List Nat) :
    chain_depth d (a ++ b) = chain_depth (chain_depth d a) b := by
  induction a generalizing d with
  | nil => rfl
  | cons k a ih =>
    show chain_depth (kind_step d k) (a ++ b) = chain_depth (chain_depth (kind_step d k) a) b
    exact ih _

theorem chain_ok_append (d : Int) (a b : List Nat) :
    chain_ok d (a ++ b) ↔ chain_ok d a ∧ chain_ok (chain_depth d a) b := by
  induction a generalizing d with
  | nil => simp [chain_ok, chain_depth]
  | cons k a ih =>
    show (_ ∧ chain_ok (kind_step d k) (a ++ b)) ↔
      (_ ∧ chain_ok (kind_step d k) a) ∧ chain_ok (chain_depth (kind_step d k) a) b
    rw [ih, and_assoc]

theorem kind_step_bounds (d : Int) (k : Nat) (h0 : 0 ≤ d) (h1 : d ≤ max_depth)
    (hk : ((k : Int) = OBJ_DELTA ∧ d < max_depth) ∨ (k : Int) = OBJ_BLOB) :
    0 ≤ kind_step d k ∧ kind_step d k ≤ max_depth := by
  unfold kind_step
  simp only [max_depth, OBJ_DELTA, OBJ_BLOB] at *
  split <;> omega

theorem chain_depth_bounds (d : Int) (ks : List Nat) (h0 : 0 ≤ d) (h1 : d ≤ max_depth)
    (h : chain_ok d ks) : 0 ≤ chain_depth d ks ∧ chain_depth d ks ≤ max_depth := by
  induction ks generalizing d with
  | nil => exact ⟨h0, h1⟩
  | cons k ks ih =>
    obtain ⟨hk, hrest⟩ := h
    obtain ⟨b0, b1⟩ := kind_step_bounds d k h0 h1 hk
    exact ih _ b0 b1 hrest

theorem chain_ok_kinds (d : Int) (ks : List Nat) (h : chain_ok d ks) :
    ∀ k ∈ ks, (k : Int) = OBJ_BLOB ∨ (k : Int) = OBJ_DELTA := by
  induction ks generalizing d with
  | nil => intro k hk; simp at hk
  | cons k ks ih =>
    obtain ⟨hk, hrest⟩ := h
    intro k' hk'
    rcases List.mem_cons.mp hk' with rfl | hm
    · rcases hk with ⟨h7, -⟩ | h3
      · exact Or.inr h7
      · exact Or.inl h3
    · exact ih _ hrest k' hm

theorem trailing_deltas_append (ks : List Nat) (k : Nat) :
    trailing_deltas (ks ++ [k]) =
      if (k : Int) = OBJ_DELTA then trailing_deltas ks + 1 else 0 := by
  simp only [trailing_deltas, List.reverse_append, List.reverse_singleton,
    List.singleton_append, List.takeWhile_cons]
  by_cases h : (k : Int) = OBJ_DELTA
  · simp [h]
  · simp [h]

/-- From depth 0, the depth after a list of records is the number of deltas at its end. -/
theorem chain_depth_trailing (ks : List Nat) :
    chain_depth 0 ks = (trailing_deltas ks : Int) := by
  induction ks using List.reverseRecOn with
  | nil => rfl
  | append_singleton ks k ih =>
    rw [chain_depth_append, ih, trailing_deltas_append]
    simp only [chain_depth, kind_step]
    split_ifs <;> simp

theorem chain_depth_deltas (d : Int) (ks : List Nat)
    (h : ∀ k ∈ ks, (k : Int) = OBJ_DELTA) : chain_depth d ks = d + ks.length := by
  induction ks generalizing d with
  | nil => simp [chain_depth]
  | cons k ks ih =>
    have hk := h k (List.mem_cons_self _ _)
    rw [chain_depth, ih _ (fun k' hk' => h k' (List.mem_cons_of_mem _ hk'))]
    simp only [kind_step, hk, if_true, List.length_cons]
    push_cast
    ring

/-- After `max_depth` deltas in a row the next record is a full blob. -/
theorem chain_ok_window (ks : List Nat) (h : chain_ok 0 ks) (i : Nat)
    (hw : ∀ j, j < max_depth.toNat → ∃ k, ks[i + j]? = some k ∧ (k : Int) = OBJ_DELTA)
    (k : Nat) (hk : ks[i + max_depth.toNat]? = some k) : (k : Int) = OBJ_BLOB := by
  have hm : max_depth.toNat = 10 := rfl
  rw [hm] at hw hk
  have hlt : i + 10 < ks.length := by
    rcases Nat.lt_or_ge (i + 10) ks.length with h | h
    · exact h
    · rw [List.getElem?_eq_none h] at hk; simp at hk
  have hsplit : ks = ks.take i ++ ((ks.drop i).take 10 ++ (k :: ks.drop (i + 10 + 1))) := by
    have e1 := (List.take_append_drop i ks).symm
    have e2 := (List.take_append_drop 10 (ks.drop i)).symm
    have e3 : (ks.drop i).drop 10 = k :: ks.drop (i + 10 + 1) := by
      rw [List.drop_drop]
      have hk' : ks[i + 10] = k := by
        rw [List.getElem?_eq_getElem hlt] at hk
        exact Option.some.inj hk
      rw [← hk']
      exact List.drop_eq_getElem_cons hlt
    rw [e3] at e2
    rw [← e2]
    exact e1
  have hall : ∀ k' ∈ (ks.drop i).take 10, (k' : Int) = OBJ_DELTA := by
    intro k' hk'
    obtain ⟨j, hj⟩ := List.mem_iff_getElem?.mp hk'
    rw [List.getElem?_take] at hj
    split at hj
    · rename_i hj10
      rw [List.getElem?_drop] at hj
      obtain ⟨k'', h1, h2⟩ := hw j hj10
      rw [hj] at h1
      rw [Option.some.inj h1]
      exact h2
    · simp at hj
  have hlen : ((ks.drop i).take 10).length = 10 := by
    rw [List.length_take, List.length_drop]; omega
  rw [hsplit, chain_ok_append, chain_ok_append] at h
  obtain ⟨ha, -, hc⟩ := h
  obtain ⟨b0, -⟩ := chain_depth_bounds 0 _ (le_refl _) (by decide) ha
  rw [chain_depth_deltas _ _ hall, hlen] at hc
  obtain ⟨hstep, -⟩ := hc
  rcases hstep with ⟨-, hd⟩ | h3
  · simp only [max_depth] at hd
    push_cast at hd
    omega
  · exact h3


theorem import_blobs_append (E : Env) (a b : List (List Nat)) :
    ∀ st st' ks, import_blobs E st (a ++ b) = Except.ok (st', ks) →
      ∃ st1, import_blobs E st a = Except.ok (st1, ks.take a.length) ∧
        import_blobs E st1 b = Except.ok (st', ks.drop a.length) := by
  induction a with
  | nil =>
    intro st st' ks h
    exact ⟨st, rfl, h⟩
  | cons x a ih =>
    intro st st' ks h
    simp only [List.cons_append, import_blobs] at h
    split at h
    · simp at h
    · rename_i st1 hm
      split at h
      · simp at h
      · rename_i r hr
        simp only [Except.ok.injEq, Prod.mk.injEq] at h
        obtain ⟨h1, h2⟩ := h
        obtain ⟨st2, i1, i2⟩ := ih st1 r.1 r.2 hr
        refine ⟨st2, ?_, ?_⟩
        · simp only [import_blobs, hm, i1, ← h2, List.length_cons, List.take_succ_cons]
        · rw [← h2, ← h1]
          simpa using i2

/-- The predecessor fields after a run: the last blob, its length and its digest. -/
theorem import_blobs_last (E : Env) (blobs : List (List Nat)) :
    ∀ st, Streaming st → ∀ st' ks, import_blobs E st blobs = Except.ok (st', ks) →
      match blobs.getLast? with
      | none => st' = st
      | some p => st'.lastdat = some p ∧ st'.lastdatlen = p.length ∧
          st'.lastsha1 = E.SHA1 (blob_hash_input p) := by
  induction blobs with
  | nil =>
    intro st _ st' ks h
    simp only [import_blobs, Except.ok.injEq, Prod.mk.injEq] at h
    simp [h.1]
  | cons b rest ih =>
    intro st hst st' ks h
    obtain ⟨st1, m1, m2, m3, m4, m5, m6, m7, m8, m9⟩ := main_body_ok E st b hst
    simp only [import_blobs, m1] at h
    split at h
    · simp at h
    · rename_i r hr
      simp only [Except.ok.injEq, Prod.mk.injEq] at h
      have i := ih st1 m2 r.1 r.2 hr
      rw [h.1] at i
      cases rest with
      | nil =>
        simp only [List.getLast?_nil] at i
        simp only [List.getLast?_singleton]
        rw [i]
        exact ⟨m6, m7, m8⟩
      | cons c rest' =>
        rw [List.getLast?_cons_cons]
        exact i


/-! ## The loop of `main` under arbitrary reads -/

/-- The loop of `main` from a streaming state, whatever the reads return and whatever the
unset bytes of `datlen` hold: it ends in the out-of-memory death of `xmalloc`, or it ends
normally after running the loop body on some list of blobs. -/
theorem main_loop_any (E : Env) (stdin : File) (st : State) (hs : Streaming st) :
    main_loop E stdin st = Except.error (Fault.die "Out of memory, malloc failed") ∨
    ∃ blobs st1 ks, import_blobs E st blobs = Except.ok (st1, ks) ∧
      main_loop E stdin st = Except.ok st1 := by
  induction stdin, st using main_loop.induct E with
  | case1 stdin st r1 h1 =>
    right
    refine ⟨[], st, [], rfl, ?_⟩
    rw [main_loop]
    simp only [show yread stdin 4 = r1 from rfl]
    rw [if_pos h1]
  | case2 stdin st datlen0 r1 h1 datlen hm =>
    left
    rw [main_loop]
    simp only [show E.indeterminate st.object_count = datlen0 from rfl,
      show yread stdin 4 = r1 from rfl,
      show ulong_load E (r1.2.1 ++ datlen0.drop 4) = datlen from rfl]
    rw [if_neg h1, if_pos hm]
  | case3 stdin st datlen0 r1 h1 datlen hm r2 h2 =>
    right
    refine ⟨[], st, [], rfl, ?_⟩
    rw [main_loop]
    simp only [show E.indeterminate st.object_count = datlen0 from rfl,
      show yread stdin 4 = r1 from rfl,
      show ulong_load E (r1.2.1 ++ datlen0.drop 4) = datlen from rfl,
      show yread r1.2.2 datlen = r2 from rfl]
    rw [if_neg h1, if_neg hm, if_pos h2]
  | case4 stdin st datlen0 r1 h1 datlen hm r2 h2 e hb =>
    have hl : r2.2.1.length = datlen := yread_length r1.2.2 datlen (not_not.mp h2)
    obtain ⟨st2, m1, -⟩ := main_body_ok E st r2.2.1 hs
    rw [hl, hb] at m1
    cases m1
  | case5 stdin st datlen0 r1 h1 datlen hm r2 h2 st' hb ih =>
    have hl : r2.2.1.length = datlen := yread_length r1.2.2 datlen (not_not.mp h2)
    obtain ⟨st2, m1, m2, -⟩ := main_body_ok E st r2.2.1 hs
    have hb' : main_body E st r2.2.1 r2.2.1.length = Except.ok st' := by rw [hl]; exact hb
    rw [hb'] at m1
    cases m1
    have hstep : main_loop E stdin st = main_loop E r2.2.2 st' := by
      rw [main_loop]
      simp only [show E.indeterminate st.object_count = datlen0 from rfl,
        show yread stdin 4 = r1 from rfl,
        show ulong_load E (r1.2.1 ++ datlen0.drop 4) = datlen from rfl,
        show yread r1.2.2 datlen = r2 from rfl]
      rw [if_neg h1, if_neg hm, if_neg h2, hb]
    rw [hstep]
    rcases ih m2 with hdie | ⟨blobs, st1, ks, i1, i2⟩
    · left; exact hdie
    · right
      refine ⟨r2.2.1 :: blobs, st1, written_kind st st' :: ks, ?_, i2⟩
      simp only [import_blobs, hb', i1]

/-! ## Whole runs -/

theorem complete_records_parses (e : Endian) (data : List Nat) :
    Parses e data (complete_records e data) := by
  induction data using complete_records.induct e with
  | case1 data h4 hL ih =>
    rw [complete_records_cons e data h4 hL]
    have hsplit : data = data.take 4 ++ (data.drop 4).take (host_u32 e (data.take 4)) ++
        data.drop (4 + host_u32 e (data.take 4)) := by
      have e1 := (List.take_append_drop 4 data).symm
      have e2 := (List.take_append_drop (host_u32 e (data.take 4)) (data.drop 4)).symm
      rw [List.drop_drop] at e2
      rw [List.append_assoc, ← e2]
      exact e1
    have hrec := Parses.record (data.take 4) ((data.drop 4).take (host_u32 e (data.take 4)))
      (data.drop (4 + host_u32 e (data.take 4))) _
      (by rw [List.length_take]; omega)
      (by rw [List.length_take, List.length_drop]; omega) ih
    rw [← hsplit] at hrec
    exact hrec
  | case2 data h4 hL =>
    rw [complete_records_cut e data h4 hL]
    exact Parses.done data (Or.inr (by omega))
  | case3 data h4 =>
    rw [complete_records_short e data h4]
    exact Parses.done data (Or.inl (by omega))

theorem parses_eq_complete_records (e : Endian) (data : List Nat) (recs : List (List Nat))
    (h : Parses e data recs) : recs = complete_records e data := by
  induction h with
  | done rest h =>
    rcases h with h | h
    · rw [complete_records_short e rest (by omega)]
    · by_cases h4 : 4 ≤ rest.length
      · rw [complete_records_cut e rest h4 (by omega)]
      · rw [complete_records_short e rest h4]
  | record len payload rest recs h4 hL _ ih =>
    have ht : (len ++ payload ++ rest).take 4 = len := by
      rw [List.append_assoc, List.take_append_of_le_length (by omega),
        List.take_of_length_le (by omega)]
    have hd : (len ++ payload ++ rest).drop 4 = payload ++ rest := by
      rw [List.append_assoc, List.drop_append_of_le_length (by omega),
        List.drop_of_length_le (by omega), List.nil_append]
    have hlen : 4 ≤ (len ++ payload ++ rest).length := by
      simp only [List.length_append]; omega
    have hL' : host_u32 e ((len ++ payload ++ rest).take 4) ≤
        (len ++ payload ++ rest).length - 4 := by
      rw [ht, hL]
      simp only [List.length_append]; omega
    rw [complete_records_cons e _ hlen hL', hd, ht, hL, ← List.drop_drop, hd]
    rw [List.take_append_of_le_length (le_refl _), List.take_length,
      List.drop_append_of_le_length (le_refl _), List.drop_length, List.nil_append, ih]

/-- The end of a run whose loop ran the loop body on `blobs`, when no call on the pack
file fails, on every host: the finalizer completes, and the archive is the magic, the
first four bytes of the stored `htonl(2)` and `htonl(object_count)`, the records written
by the loop, and the digest of all of these. -/
theorem main_finish (E : Env) (stdin : File) (plan : List SysEvent)
    (h2 : SysEvent.fail ∉ plan) (blobs : List (List Nat)) (st0 st1 : State) (ks : List Nat)
    (i0 : init_pack_header E (State.start plan) = Except.ok st0)
    (hb : import_blobs E st0 blobs = Except.ok (st1, ks))
    (hloop : main_loop E stdin st0 = Except.ok st1) :
    ∃ st R, fixup_header_footer E st1 = Except.ok st ∧
      main E stdin plan = Except.ok st ∧
      st0.packfd.data =
        [80, 65, 67, 75] ++ (ulong_store E (htonl E 2)).take 4 ++ [0, 0, 0, 0] ∧
      st1.packfd.data = st0.packfd.data ++ R ∧
      (blobs = [] → R = []) ∧
      ks.length = blobs.length ∧
      st1.object_count = blobs.length ∧
      st.object_count = st1.object_count ∧
      st1.stdout = blobs.map (fun b => sha1_to_hex (E.SHA1 (blob_hash_input b)) ++ [10]) ∧
      st.stdout = st1.stdout ∧
      st.packfd.data =
        ([80, 65, 67, 75] ++ (ulong_store E (htonl E 2)).take 4 ++
          (ulong_store E (htonl E st.object_count)).take 4 ++ R) ++
        E.SHA1 ([80, 65, 67, 75] ++ (ulong_store E (htonl E 2)).take 4 ++
          (ulong_store E (htonl E st.object_count)).take 4 ++ R) := by
  obtain ⟨st0', i0', s0, i1, -, i3, -, i5⟩ := init_pack_header_ok E plan h2
  rw [i0] at i0'
  cases i0'
  obtain ⟨st1', ks', r1, s1, r3, r4, ⟨R, r5, r5'⟩, r6, -, -⟩ := import_blobs_ok E blobs st0 s0
  rw [hb] at r1
  cases r1
  have h12 := init_pack_header_length E
  have h4 : ((ulong_store E (htonl E 2)).take 4).length = 4 := count_bytes_length E 2
  have hlen : 12 ≤ st1.packfd.data.length := by
    rw [r5, i1, List.length_append, h12]; omega
  obtain ⟨st, f1, f2, f3, -, -, -, -, f8⟩ := fixup_header_footer_ok E st1 s1.1 hlen
  have ht : st1.packfd.data.take 8 =
      [80, 65, 67, 75] ++ (ulong_store E (htonl E 2)).take 4 := by
    rw [r5, i1, List.append_assoc, List.append_assoc, ← List.append_assoc [80, 65, 67, 75]]
    exact List.take_left' (by rw [List.length_append, h4]; rfl)
  have hd : st1.packfd.data.drop 12 = R := by
    rw [r5, i1]
    exact List.drop_left' h12
  rw [ht, hd, ← f3] at f2
  refine ⟨st, R, f1, ?_, i1, r5, r5', r3, by rw [r4, i3]; simp, f3, by rw [r6, i5]; simp,
    f8, f2⟩
  simp only [main, i0, hloop, f1]

/-- A whole run in which no call fails, every allocation succeeds and `datlen` is the
number in the four bytes read: the header is written, the loop body runs on the complete
records of standard input, and the finalizer completes. -/
theorem main_ok (E : Env) (hx : E.datlen_exact) (ha : ∀ n, E.xmalloc_ok n = true)
    (stdin : File) (plan : List SysEvent)
    (h1 : SysEvent.fail ∉ stdin.plan) (h2 : SysEvent.fail ∉ plan) :
    ∃ st0 st1 ks, init_pack_header E (State.start plan) = Except.ok st0 ∧
      import_blobs E st0 (complete_records E.endian (stdin.data.drop stdin.pos)) =
        Except.ok (st1, ks) ∧
      main_loop E stdin st0 = Except.ok st1 := by
  obtain ⟨st0, i0, s0, -⟩ := init_pack_header_ok E plan h2
  obtain ⟨st1, ks, r1, -⟩ :=
    import_blobs_ok E (complete_records E.endian (stdin.data.drop stdin.pos)) st0 s0
  refine ⟨st0, st1, ks, i0, r1, ?_⟩
  rw [main_loop_eq E hx ha stdin st0 h1, r1]
  rfl

/-- A whole run in which no call on the pack file fails, whatever the reads on standard
input return and whatever the unset bytes of `datlen` hold: the run dies in `xmalloc`, or
the loop ran the loop body on some list of blobs and ended normally. -/
theorem main_any (E : Env) (stdin : File) (plan : List SysEvent)
    (h2 : SysEvent.fail ∉ plan) :
    main E stdin plan = Except.error (Fault.die "Out of memory, malloc failed") ∨
    ∃ blobs st0 st1 ks, init_pack_header E (State.start plan) = Except.ok st0 ∧
      import_blobs E st0 blobs = Except.ok (st1, ks) ∧
      main_loop E stdin st0 = Except.ok st1 := by
  obtain ⟨st0, i0, s0, -⟩ := init_pack_header_ok E plan h2
  rcases main_loop_any E stdin st0 s0 with hdie | ⟨blobs, st1, ks, hb, hloop⟩
  · left
    simp only [main, i0, hdie]
  · right
    exact ⟨blobs, st0, st1, ks, i0, hb, hloop⟩

/-! ## Runs on hosts where the four-byte accesses are exact

The theorems of this section state where the run-level properties of the archive do hold:
the header words on little-endian hosts and on hosts with a 4-byte `unsigned long`, the
reading of records on hosts where `datlen` ends up holding the four bytes read. -/

/-- The loop of `main` on an input with fewer than four bytes left, when no read fails:
no allocation is made and the state is unchanged. -/
theorem main_loop_short (E : Env) (stdin : File) (st : State)
    (hf : SysEvent.fail ∉ stdin.plan) (h : (stdin.data.drop stdin.pos).length < 4) :
    main_loop E stdin st = Except.ok st := by
  rw [main_loop]
  simp only []
  rw [if_pos (fun h4 => absurd ((main_read_four stdin hf).1 h4) (by omega))]

theorem host_u32_big_be32 (n : Nat) (h : n < 2 ^ 32) : host_u32 Endian.big (be32 n) = n := by
  simp only [host_u32, be32, List.getD_cons_zero, List.getD_cons_succ]
  norm_num at h ⊢
  omega

/-- Reading and counting on a host where `datlen` ends up holding the four bytes read and
the header words come out big-endian, when no call fails and every allocation succeeds:
the blobs imported are exactly the complete records of standard input in order, one digest
line is printed per complete record, `object_count` is their number `N`, and bytes 8..11 of
the archive are the big-endian encoding of `N`. -/
theorem main_exact_host (E : Env) (hx : E.datlen_exact) (ha : ∀ n, E.xmalloc_ok n = true)
    (hh : E.endian = Endian.little ∨ E.long_bytes = 4)
    (stdin : File) (plan : List SysEvent)
    (h1 : SysEvent.fail ∉ stdin.plan) (h2 : SysEvent.fail ∉ plan) :
    ∃ recs st0 st1 ks st, Parses E.endian (stdin.data.drop stdin.pos) recs ∧
      (∀ recs', Parses E.endian (stdin.data.drop stdin.pos) recs' → recs' = recs) ∧
      recs = complete_records E.endian (stdin.data.drop stdin.pos) ∧
      init_pack_header E (State.start plan) = Except.ok st0 ∧
      import_blobs E st0 recs = Except.ok (st1, ks) ∧
      main_loop E stdin st0 = Except.ok st1 ∧
      fixup_header_footer E st1 = Except.ok st ∧
      main E stdin plan = Except.ok st ∧
      st.stdout = recs.map (fun b => sha1_to_hex (E.SHA1 (blob_hash_input b)) ++ [10]) ∧
      st.object_count = recs.length ∧ ks.length = recs.length ∧
      (st.packfd.data.drop 8).take 4 = be32 recs.length ∧
      (recs.length < 2 ^ 32 →
        host_u32 Endian.big ((st.packfd.data.drop 8).take 4) = recs.length) ∧
      ∃ R, st1.packfd.data = [80, 65, 67, 75] ++ be32 2 ++ [0, 0, 0, 0] ++ R ∧
        (recs = [] → R = []) ∧
        st.packfd.data =
          ([80, 65, 67, 75] ++ be32 2 ++ be32 recs.length ++ R) ++
          E.SHA1 ([80, 65, 67, 75] ++ be32 2 ++ be32 recs.length ++ R) := by
  obtain ⟨st0, st1, ks, i0, hb, hloop⟩ := main_ok E hx ha stdin plan h1 h2
  obtain ⟨st, R, f1, f2, f3, f4, f5, f6, f7, f8, f9, f10, f11⟩ :=
    main_finish E stdin plan h2 _ st0 st1 ks i0 hb hloop
  simp only [store_htonl_take E hh] at f3 f11
  have hc : st.object_count =
      (complete_records E.endian (stdin.data.drop stdin.pos)).length := by rw [f8, f7]
  rw [hc] at f11
  have hbytes : (st.packfd.data.drop 8).take 4 =
      be32 (complete_records E.endian (stdin.data.drop stdin.pos)).length := by
    rw [f11]; rfl
  refine ⟨complete_records E.endian (stdin.data.drop stdin.pos), st0, st1, ks, st,
    complete_records_parses _ _, fun recs' h => parses_eq_complete_records _ _ _ h, rfl,
    i0, hb, hloop, f1, f2, by rw [f10, f9], hc, f6, hbytes, ?_, R, by rw [f4, f3], f5, f11⟩
  intro h32
  rw [hbytes]
  exact host_u32_big_be32 _ h32

/-! ## The `bad type` error -/

theorem write_blob_not_bad_type (E : Env) (st : State) (dat : List Nat) (datlen : Nat)
    (t : Int) : write_blob E st dat datlen ≠ Except.error (Fault.bad_type t) := by
  rw [write_blob_eq]
  cases chosen_delta E st dat datlen with
  | some delta =>
    simp only [header_bytes_ok OBJ_DELTA delta.length (by decide)]
    split_ifs <;> simp
  | none =>
    simp only [header_bytes_ok OBJ_BLOB datlen (by decide)]
    split_ifs <;> simp

theorem main_body_not_bad_type (E : Env) (st : State) (dat : List Nat) (datlen : Nat)
    (t : Int) : main_body E st dat datlen ≠ Except.error (Fault.bad_type t) := by
  unfold main_body
  have h := write_blob_not_bad_type E st dat datlen t
  cases hw : write_blob E st dat datlen with
  | error e =>
    rw [hw] at h
    simpa using h
  | ok st' => simp

theorem main_loop_not_bad_type (E : Env) (stdin : File) (st : State) (t : Int) :
    main_loop E stdin st ≠ Except.error (Fault.bad_type t) := by
  induction stdin, st using main_loop.induct E with
  | case1 stdin st r1 h1 =>
    rw [main_loop]
    simp only [show yread stdin 4 = r1 from rfl]
    rw [if_pos h1]
    simp
  | case2 stdin st datlen0 r1 h1 datlen hm =>
    rw [main_loop]
    simp only [show E.indeterminate st.object_count = datlen0 from rfl,
      show yread stdin 4 = r1 from rfl,
      show ulong_load E (r1.2.1 ++ datlen0.drop 4) = datlen from rfl]
    rw [if_neg h1, if_pos hm]
    simp
  | case3 stdin st datlen0 r1 h1 datlen hm r2 h2 =>
    rw [main_loop]
    simp only [show E.indeterminate st.object_count = datlen0 from rfl,
      show yread stdin 4 = r1 from rfl,
      show ulong_load E (r1.2.1 ++ datlen0.drop 4) = datlen from rfl,
      show yread r1.2.2 datlen = r2 from rfl]
    rw [if_neg h1, if_neg hm, if_pos h2]
    simp
  | case4 stdin st datlen0 r1 h1 datlen hm r2 h2 e hb =>
    rw [main_loop]
    simp only [show E.indeterminate st.object_count = datlen0 from rfl,
      show yread stdin 4 = r1 from rfl,
      show ulong_load E (r1.2.1 ++ datlen0.drop 4) = datlen from rfl,
      show yread r1.2.2 datlen = r2 from rfl]
    rw [if_neg h1, if_neg hm, if_neg h2, hb]
    have := main_body_not_bad_type E st r2.2.1 datlen t
    rw [hb] at this
    exact this
  | case5 stdin st datlen0 r1 h1 datlen hm r2 h2 st' hb ih =>
    rw [main_loop]
    simp only [show E.indeterminate st.object_count = datlen0 from rfl,
      show yread stdin 4 = r1 from rfl,
      show ulong_load E (r1.2.1 ++ datlen0.drop 4) = datlen from rfl,
      show yread r1.2.2 datlen = r2 from rfl]
    rw [if_neg h1, if_neg hm, if_neg h2, hb]
    exact ih

theorem fixup_loop_not_bad_type (bits : Nat) (f : File) (c : List Nat) (t : Int) :
    fixup_loop bits f c ≠ Except.error (Fault.bad_type t) := by
  induction f, c using fixup_loop.induct bits with
  | case1 f c r n hn =>
    rw [fixup_loop]
    simp only [show xread f (128 * 1024) = r from rfl, show size_t_of bits r.1 = n from rfl]
    rw [if_pos hn]
    simp
  | case2 f c r n hn hbig =>
    rw [fixup_loop]
    simp only [show xread f (128 * 1024) = r from rfl, show size_t_of bits r.1 = n from rfl]
    rw [if_neg hn, if_pos hbig]
    simp
  | case3 f c r n hn hbig ih =>
    rw [fixup_loop]
    simp only [show xread f (128 * 1024) = r from rfl, show size_t_of bits r.1 = n from rfl]
    rw [if_neg hn, if_neg hbig]
    exact ih

theorem fixup_header_footer_not_bad_type (E : Env) (st : State) (t : Int) :
    fixup_header_footer E st ≠ Except.error (Fault.bad_type t) := by
  unfold fixup_header_footer
  simp only []
  split_ifs
  · simp
  · simp
  · simp
  · have h := fixup_loop_not_bad_type E.size_bits
      (ywrite (yread (lseek_set st.packfd 0).2 8).2.2
        (ulong_store E (htonl E st.object_count)) 4).2
      (SHA1_Update (SHA1_Update SHA1_Init (yread (lseek_set st.packfd 0).2 8).2.1 8)
        (ulong_store E (htonl E st.object_count)) 4) t
    split
    · rename_i e he
      rw [he] at h
      simpa using h
    · split_ifs <;> simp

theorem init_pack_header_not_bad_type (E : Env) (st : State) (t : Int) :
    init_pack_header E st ≠ Except.error (Fault.bad_type t) := by
  unfold init_pack_header
  simp only []
  split_ifs <;> simp

/-- C8: `encode_header` fails with the `bad type` error exactly when the type is below
`OBJ_COMMIT` or above `OBJ_DELTA`, it has no other failure, and for every type in range and
every size it succeeds; a call that fails has written no header byte (the check precedes
every store); `write_blob`, which only asks for `OBJ_BLOB` and `OBJ_DELTA`, never ends in
that error, and neither does `main`. -/
theorem encode_header_bad_type (t : Int) (s : Nat) :
    (encode_header t s = Except.error (Fault.bad_type t) ↔ (t < OBJ_COMMIT ∨ t > OBJ_DELTA)) ∧
    (∀ e, encode_header t s = Except.error e → e = Fault.bad_type t) ∧
    ((t < OBJ_COMMIT ∨ t > OBJ_DELTA) → header_bytes t s = []) ∧
    ((OBJ_COMMIT ≤ t ∧ t ≤ OBJ_DELTA) →
      ∃ n b, encode_header t s = Except.ok (n, b) ∧ b.length = n ∧ 0 < n) ∧
    (∀ (E : Env) (st : State) (dat : List Nat) (datlen : Nat) (t' : Int),
      write_blob E st dat datlen ≠ Except.error (Fault.bad_type t')) ∧
    (∀ (E : Env) (stdin : File) (plan : List SysEvent) (t' : Int),
      main E stdin plan ≠ Except.error (Fault.bad_type t')) := by
  refine ⟨?_, ?_, ?_, ?_, write_blob_not_bad_type, ?_⟩
  · unfold encode_header
    split_ifs with h
    · simp [h]
    · simp [h]
  · intro e he
    unfold encode_header at he
    split_ifs at he with h
    simpa using he.symm
  · intro h
    simp only [header_bytes, encode_header, if_pos h]
  · intro ht
    have h := header_bytes_ok t s ht
    refine ⟨_, _, h, rfl, ?_⟩
    have hk := header_bytes_kind t s ht []
    by_contra h0
    have hnil : header_bytes t s = [] := List.eq_nil_of_length_eq_zero (by omega)
    rw [hnil] at hk
    obtain ⟨ht1, -, -⟩ := type_toNat_lt t ht
    simp at hk; omega
  · intro E stdin plan t'
    unfold main
    have h0 := init_pack_header_not_bad_type E (State.start plan) t'
    cases hi : init_pack_header E (State.start plan) with
    | error e => rw [hi] at h0; simpa using h0
    | ok st0 =>
      simp only []
      have h1 := main_loop_not_bad_type E stdin st0 t'
      cases hm : main_loop E stdin st0 with
      | error e => rw [hm] at h1; simpa using h1
      | ok st1 => exact fixup_header_footer_not_bad_type E st1 t'

/-! ## The read error in the finalizer -/

/-- C10 (the code at the failing input): on 64-bit and on 32-bit `size_t`, the value stored
in `n` for a failed `xread` (-1) is the largest `size_t`, the test `n <= 0` is false for it,
and the loop goes on to call `SHA1_Update` with that length; a run of `main` on empty input
whose first read in that loop fails ends there, not in the `break`. -/
theorem fixup_loop_read_error :
    size_t_of 64 (-1) = 18446744073709551615 ∧ ¬ (size_t_of 64 (-1) ≤ 0) ∧
    size_t_of 32 (-1) = 4294967295 ∧ ¬ (size_t_of 32 (-1) ≤ 0) ∧
    fixup_loop 64 { data := [80, 65, 67, 75], pos := 4, plan := [SysEvent.fail] } [] =
      Except.error (Fault.overrun 18446744073709551615) ∧
    fixup_loop 32 { data := [80, 65, 67, 75], pos := 4, plan := [SysEvent.fail] } [] =
      Except.error (Fault.overrun 4294967295) ∧
    main Env.toy { data := [], pos := 0, plan := [] }
      [SysEvent.short 3, SysEvent.short 3, SysEvent.short 3, SysEvent.short 7,
        SysEvent.short 3, SysEvent.fail] =
      Except.error (Fault.overrun 18446744073709551615) := by
  have a : size_t_of 64 (-1) = 18446744073709551615 := by decide
  have b : size_t_of 32 (-1) = 4294967295 := by decide
  refine ⟨a, by rw [a]; decide, b, by rw [b]; decide, ?_, ?_, ?_⟩
  · rw [fixup_loop]
    simp only [xread, a]
    rfl
  · rw [fixup_loop]
    simp only [xread, b]
    rfl
  · simp [main, init_pack_header, ywrite, ywrite_loop, xwrite, State.start, write_at, htonl,
      ulong_store, ulong_load, range_eight, main_loop, yread, yread_loop, xread,
      fixup_header_footer, lseek_set, fixup_loop, SHA1_Init, SHA1_Update, Env.toy, a]

/-! ## The record of a blob and the chain depth -/

/-- C2: after any blobs have been imported, `write_blob` appends exactly one record for the
next blob. If there is a previous blob, `current_depth < max_depth` and `diff_delta` returns
a delta, the record is the `OBJ_DELTA` header of the delta length, the 20-byte digest of the
previous input blob, and the compressed delta; otherwise (in particular for the first blob)
it is the `OBJ_BLOB` header of the blob length followed directly by the compressed blob. -/
theorem write_blob_record (E : Env) (plan : List SysEvent) (hf : SysEvent.fail ∉ plan)
    (blobs : List (List Nat)) (dat : List Nat) :
    ∃ st0 st ks st', init_pack_header E (State.start plan) = Except.ok st0 ∧
      import_blobs E st0 blobs = Except.ok (st, ks) ∧
      write_blob E st dat dat.length = Except.ok st' ∧
      ((∃ prev delta n hdr, blobs.getLast? = some prev ∧ st.current_depth < max_depth ∧
          E.diff_delta prev dat = some delta ∧
          encode_header OBJ_DELTA delta.length = Except.ok (n, hdr) ∧
          (E.SHA1 (blob_hash_input prev)).length = 20 ∧
          st'.packfd.data = st.packfd.data ++
            (hdr ++ E.SHA1 (blob_hash_input prev) ++ E.deflate delta)) ∨
       ((blobs = [] ∨ ¬ st.current_depth < max_depth ∨
          ∃ prev, blobs.getLast? = some prev ∧ E.diff_delta prev dat = none) ∧
        ∃ n hdr, encode_header OBJ_BLOB dat.length = Except.ok (n, hdr) ∧
          st'.packfd.data = st.packfd.data ++ (hdr ++ E.deflate dat))) := by
  obtain ⟨st0, i0, s0, -, -, -, l0, -⟩ := init_pack_header_ok E plan hf
  obtain ⟨st, ks, r1, s1, -⟩ := import_blobs_ok E blobs st0 s0
  have hlast := import_blobs_last E blobs st0 s0 st ks r1
  obtain ⟨st', w, w1, -⟩ := write_blob_ok E st dat dat.length s1.1 s1.2.1 s1.2.2
  refine ⟨st0, st, ks, st', i0, r1, w, ?_⟩
  rw [w1]
  unfold blob_record chosen_delta
  cases hg : blobs.getLast? with
  | none =>
    rw [hg] at hlast
    simp only [] at hlast
    rw [hlast, l0]
    right
    refine ⟨Or.inl (List.getLast?_eq_none_iff.mp hg), _, _,
      header_bytes_ok OBJ_BLOB dat.length (by decide), ?_⟩
    simp only [List.take_length]
  | some prev =>
    rw [hg] at hlast
    obtain ⟨h1, h2, h3⟩ := hlast
    rw [h1]
    simp only [h2, List.take_length]
    by_cases hd : st.current_depth < max_depth
    · rw [if_pos hd]
      cases hdd : E.diff_delta prev dat with
      | none =>
        right
        exact ⟨Or.inr (Or.inr ⟨prev, rfl, hdd⟩), _, _,
          header_bytes_ok OBJ_BLOB dat.length (by decide), rfl⟩
      | some delta =>
        left
        refine ⟨prev, delta, _, _, rfl, hd, hdd,
          header_bytes_ok OBJ_DELTA delta.length (by decide), E.sha1_length _, ?_⟩
        simp only [h3]
    · rw [if_neg hd]
      right
      exact ⟨Or.inr (Or.inl hd), _, _, header_bytes_ok OBJ_BLOB dat.length (by decide), rfl⟩

theorem trailing_deltas_full (ks : List Nat) (k : Nat) (h : ks.getLast? = some k)
    (hk : (k : Int) = OBJ_BLOB) : trailing_deltas ks = 0 := by
  obtain ⟨l, rfl⟩ := List.getLast?_eq_some_iff.mp h
  rw [trailing_deltas_append, if_neg]
  rw [hk]
  decide

/-- C3: after every processed blob (every prefix of every input sequence, whatever
`diff_delta` answers) `current_depth` is the number of consecutive delta records written
since the last full record (0 when the record just written is full) and is at most
`max_depth`; every record is a full blob or a delta; the record that follows `max_depth`
deltas in a row is a full blob, so no `max_depth + 1` records in a row are deltas. -/
theorem chain_depth_invariant (E : Env) (plan : List SysEvent) (hf : SysEvent.fail ∉ plan)
    (blobs : List (List Nat)) :
    ∃ st0 st ks, init_pack_header E (State.start plan) = Except.ok st0 ∧
      import_blobs E st0 blobs = Except.ok (st, ks) ∧ ks.length = blobs.length ∧
      (∀ k ∈ ks, (k : Int) = OBJ_BLOB ∨ (k : Int) = OBJ_DELTA) ∧
      (∀ m, m ≤ blobs.length →
        ∃ st_m, import_blobs E st0 (blobs.take m) = Except.ok (st_m, ks.take m) ∧
          st_m.current_depth = (trailing_deltas (ks.take m) : Int) ∧
          (∀ k, (ks.take m).getLast? = some k → (k : Int) = OBJ_BLOB →
            st_m.current_depth = 0) ∧
          st_m.current_depth ≤ max_depth) ∧
      (∀ i, (∀ j, j < max_depth.toNat → ∃ k, ks[i + j]? = some k ∧ (k : Int) = OBJ_DELTA) →
        ∀ k, ks[i + max_depth.toNat]? = some k → (k : Int) = OBJ_BLOB) ∧
      (∀ i, ¬ ∀ j, j ≤ max_depth.toNat → ∃ k, ks[i + j]? = some k ∧ (k : Int) = OBJ_DELTA) := by
  obtain ⟨st0, i0, s0, -, d0, -⟩ := init_pack_header_ok E plan hf
  obtain ⟨st, ks, r1, -, r3, -, -, -, r7, -⟩ := import_blobs_ok E blobs st0 s0
  rw [d0] at r7
  have hwin := chain_ok_window ks r7
  refine ⟨st0, st, ks, i0, r1, r3, chain_ok_kinds 0 ks r7, ?_, hwin, ?_⟩
  · intro m hm
    have hsplit : blobs.take m ++ blobs.drop m = blobs := List.take_append_drop m blobs
    rw [← hsplit] at r1
    obtain ⟨st_m, p1, -⟩ := import_blobs_append E _ _ st0 st ks r1
    have hlen : (blobs.take m).length = m := by rw [List.length_take]; omega
    rw [hlen] at p1
    obtain ⟨st_m', ks', q1, -, -, -, -, -, q7, q8⟩ := import_blobs_ok E (blobs.take m) st0 s0
    rw [p1] at q1
    simp only [Except.ok.injEq, Prod.mk.injEq] at q1
    obtain ⟨e1, e2⟩ := q1
    subst e1 e2
    rw [d0] at q7 q8
    have hd : st_m.current_depth = (trailing_deltas (ks.take m) : Int) := by
      rw [q8, chain_depth_trailing]
    refine ⟨st_m, p1, hd, ?_, ?_⟩
    · intro k hk hk3
      rw [hd, trailing_deltas_full _ k hk hk3]
      rfl
    · rw [q8]
      exact (chain_depth_bounds 0 _ (le_refl _) (by decide) q7).2
  · intro i hall
    obtain ⟨k, hk, hk7⟩ := hall max_depth.toNat (le_refl _)
    have hk3 := hwin i (fun j hj => hall j (le_of_lt hj)) k hk
    rw [hk7] at hk3
    exact absurd hk3 (by decide)


/-! ## The name of a blob -/

/-- The `%lu` rendering is the decimal numeral: digits below ten, most significant first,
no leading zero, `"0"` for zero, and their value is the number. -/
theorem decimal_digits (n : Nat) :
    ∃ ds : List Nat, decimal n = ds.map (· + 48) ∧ ds ≠ [] ∧ (∀ d ∈ ds, d < 10) ∧
      Nat.ofDigits 10 ds.reverse = n ∧ (n = 0 → ds = [0]) ∧
      (n ≠ 0 → ds.head? ≠ some 0) := by
  by_cases hn : n = 0
  · subst hn
    exact ⟨[0], by simp [decimal], by simp, by simp, by simp [Nat.ofDigits], fun _ => rfl,
      fun h => absurd rfl h⟩
  · refine ⟨(Nat.digits 10 n).reverse, by simp [decimal, hn], ?_, ?_, ?_, fun h => absurd h hn,
      fun _ => ?_⟩
    · intro h
      rw [List.reverse_eq_nil_iff] at h
      exact Nat.digits_ne_nil_iff_ne_zero.mpr hn h
    · intro d hd
      exact Nat.digits_lt_base (by norm_num) (List.mem_reverse.mp hd)
    · rw [List.reverse_reverse, Nat.ofDigits_digits]
    · rw [List.head?_reverse]
      have hne : Nat.digits 10 n ≠ [] := Nat.digits_ne_nil_iff_ne_zero.mpr hn
      rw [List.getLast?_eq_getLast _ hne]
      intro h
      exact Nat.getLast_digit_ne_zero 10 hn (Option.some.inj h)

/-- C6: for every blob `B` imported after any others, the digest stored as `lastsha1` and
printed (in hexadecimal, one line) is SHA-1 of `"blob "`, the decimal length of `B` (digits
below ten, most significant first, no leading zero, `"0"` for length 0), one NUL, and `B`;
and when the next blob is written as a delta, that digest follows the delta header. -/
theorem blob_digest (E : Env) (plan : List SysEvent) (hf : SysEvent.fail ∉ plan)
    (blobs : List (List Nat)) (B : List Nat) :
    ∃ st0 st ks st' ds, init_pack_header E (State.start plan) = Except.ok st0 ∧
      import_blobs E st0 blobs = Except.ok (st, ks) ∧
      main_body E st B B.length = Except.ok st' ∧
      ds ≠ [] ∧ (∀ d ∈ ds, d < 10) ∧ Nat.ofDigits 10 ds.reverse = B.length ∧
      (B.length = 0 → ds = [0]) ∧ (B.length ≠ 0 → ds.head? ≠ some 0) ∧
      st'.lastsha1 = E.SHA1 ([98, 108, 111, 98, 32] ++ ds.map (· + 48) ++ [0] ++ B) ∧
      st'.stdout = st.stdout ++
        [sha1_to_hex (E.SHA1 ([98, 108, 111, 98, 32] ++ ds.map (· + 48) ++ [0] ++ B)) ++ [10]] ∧
      (∀ next delta, E.diff_delta B next = some delta → st'.current_depth < max_depth →
        ∃ st'' n hdr, main_body E st' next next.length = Except.ok st'' ∧
          encode_header OBJ_DELTA delta.length = Except.ok (n, hdr) ∧
          st''.packfd.data = st'.packfd.data ++
            (hdr ++ E.SHA1 ([98, 108, 111, 98, 32] ++ ds.map (· + 48) ++ [0] ++ B) ++
              E.deflate delta)) := by
  obtain ⟨st0, i0, s0, -⟩ := init_pack_header_ok E plan hf
  obtain ⟨st, ks, r1, s1, -⟩ := import_blobs_ok E blobs st0 s0
  obtain ⟨st', m1, m2, m3, m4, m5, m6, m7, m8, m9⟩ := main_body_ok E st B s1
  obtain ⟨ds, d1, d2, d3, d4, d5, d6⟩ := decimal_digits B.length
  have hin : blob_hash_input B = [98, 108, 111, 98, 32] ++ ds.map (· + 48) ++ [0] ++ B := by
    rw [blob_hash_input, d1]
  rw [hin] at m8 m9
  refine ⟨st0, st, ks, st', ds, i0, r1, m1, d2, d3, d4, d5, d6, m8, m9, ?_⟩
  intro next delta hdd hdepth
  obtain ⟨st'', n1, n2, n3, -⟩ := main_body_ok E st' next m2
  refine ⟨st'', _, _, n1, header_bytes_ok OBJ_DELTA delta.length (by decide), ?_⟩
  rw [n3]
  have hc : chosen_delta E st' next next.length = some delta := by
    simp only [chosen_delta, m6, m7, List.take_length, if_pos hdepth, hdd]
  simp only [blob_record, hc, m8]

/-! ## The counter -/


theorem write_blob_count (E : Env) (s : State) (dat : List Nat) (n : Nat) (s' : State)
    (h : write_blob E s dat n = Except.ok s') : s'.object_count = s.object_count := by
  rw [write_blob_eq] at h
  cases hc : chosen_delta E s dat n with
  | some delta =>
    rw [hc] at h
    simp only [header_bytes_ok OBJ_DELTA delta.length (by decide)] at h
    split_ifs at h
    simp only [Except.ok.injEq] at h
    rw [← h]
  | none =>
    rw [hc] at h
    simp only [header_bytes_ok OBJ_BLOB n (by decide)] at h
    split_ifs at h
    simp only [Except.ok.injEq] at h
    rw [← h]

theorem main_body_count (E : Env) (s : State) (dat : List Nat) (n : Nat) (s' : State)
    (h : main_body E s dat n = Except.ok s') : s'.object_count = s.object_count + 1 := by
  unfold main_body at h
  simp only [] at h
  split at h
  · simp at h
  · rename_i s1 hw
    simp only [Except.ok.injEq] at h
    rw [← h]
    simp only []
    rw [write_blob_count E s dat n s1 hw]

theorem fixup_header_footer_count (E : Env) (s s' : State)
    (h : fixup_header_footer E s = Except.ok s') : s'.object_count = s.object_count := by
  unfold fixup_header_footer at h
  simp only [] at h
  split_ifs at h
  split at h
  · simp at h
  · split_ifs at h
    simp only [Except.ok.injEq] at h
    rw [← h]

theorem init_pack_header_count (E : Env) (s s' : State)
    (h : init_pack_header E s = Except.ok s') : s'.object_count = s.object_count := by
  unfold init_pack_header at h
  simp only [] at h
  split_ifs at h
  simp only [Except.ok.injEq] at h
  rw [← h]

/-! ## The four-byte accesses to `unsigned long` objects

The source declares `version`, `zero`, `cnt` and `datlen` as `unsigned long` and reads or
writes four bytes at their address. Where `unsigned long` has 8 bytes, the four bytes
written are the high half of the value on a big-endian host, and the four bytes read leave
the other half of `datlen` as it was found. The theorems below evaluate the program on
such hosts. -/

/-- The loop of `main` on the stream of two records `[9]` and `[]` and a stray byte, on the
little-endian host that finds a 1 in the fifth byte of `datlen` and has room for every
allocation: the first length is taken to be `2 ^ 32 + 1`, the payload read falls short
of it, and the loop ends with nothing imported. -/
theorem main_loop_stale_roomy (st : State) :
    main_loop Env.stale_roomy
      { data := [1, 0, 0, 0, 9, 0, 0, 0, 0, 3], pos := 0, plan := [] } st = Except.ok st := by
  rw [main_loop]
  simp [ulong_load, range_eight, yread, yread_loop, xread, Env.stale_roomy, Env.toy]

/-- The whole run on that host and stream: the finalizer runs on an archive without
records. -/
theorem main_stale_roomy :
    ∃ st, main Env.stale_roomy
        { data := [1, 0, 0, 0, 9, 0, 0, 0, 0, 3], pos := 0, plan := [] } [] = Except.ok st ∧
      st.object_count = 0 ∧ st.stdout = [] ∧
      st.packfd.data = [80, 65, 67, 75, 0, 0, 0, 2, 0, 0, 0, 0] ++
        Env.stale_roomy.SHA1 [80, 65, 67, 75, 0, 0, 0, 2, 0, 0, 0, 0] := by
  have h2 : SysEvent.fail ∉ ([] : List SysEvent) := List.not_mem_nil _
  obtain ⟨st0, i0, -⟩ := init_pack_header_ok Env.stale_roomy [] h2
  obtain ⟨st, R, -, f2, -, -, f5, -, f7, f8, f9, f10, f11⟩ :=
    main_finish Env.stale_roomy { data := [1, 0, 0, 0, 9, 0, 0, 0, 0, 3], pos := 0, plan := [] }
      [] h2 [] st0 st0 [] i0 rfl (main_loop_stale_roomy st0)
  have hc : st.object_count = 0 := by rw [f8, f7]; rfl
  simp only [store_htonl_take Env.stale_roomy (Or.inl rfl)] at f11
  refine ⟨st, f2, hc, by rw [f10, f9]; rfl, ?_⟩
  rw [f11, f5 rfl, hc]
  rfl

/-- On a big-endian host whose `unsigned long` has 8 bytes, `htonl(2)` is 2 and is stored as
`00 00 00 00 00 00 00 02`, and the 4-byte writes of `init_pack_header` and
`fixup_header_footer` take the first four of the eight bytes: the run on empty input returns
with the archive `PACK`, eight zero bytes and the digest of these twelve bytes, and every
run of that host that returns has those twelve bytes in front. -/
theorem main_big_endian_long :
    htonl Env.big64 2 = 2 ∧
    ulong_store Env.big64 (htonl Env.big64 2) = [0, 0, 0, 0, 0, 0, 0, 2] ∧
    (∃ st, main Env.big64 { data := [], pos := 0, plan := [] } [] = Except.ok st ∧
      st.object_count = 0 ∧
      st.packfd.data = [80, 65, 67, 75, 0, 0, 0, 0, 0, 0, 0, 0] ++
        Env.big64.SHA1 [80, 65, 67, 75, 0, 0, 0, 0, 0, 0, 0, 0]) ∧
    (∀ (stdin : File) (plan : List SysEvent) (st : State), SysEvent.fail ∉ plan →
      main Env.big64 stdin plan = Except.ok st →
        st.packfd.data.take 12 = [80, 65, 67, 75, 0, 0, 0, 0, 0, 0, 0, 0]) := by
  have h2 : SysEvent.fail ∉ ([] : List SysEvent) := List.not_mem_nil _
  have hz := store_htonl_take_big64 Env.big64 rfl rfl
  refine ⟨rfl, ?_, ?_, ?_⟩
  · simp [ulong_store, htonl, Env.big64, Env.toy, range_eight]
  · obtain ⟨st0, i0, -⟩ := init_pack_header_ok Env.big64 [] h2
    obtain ⟨st, R, -, f2, -, -, f5, -, f7, f8, -, -, f11⟩ :=
      main_finish Env.big64 { data := [], pos := 0, plan := [] } [] h2 [] st0 st0 [] i0 rfl
        (main_loop_short Env.big64 _ st0 h2 (by decide))
    have hc : st.object_count = 0 := by rw [f8, f7]; rfl
    simp only [hz] at f11
    refine ⟨st, f2, hc, ?_⟩
    rw [f11, f5 rfl]
    rfl
  · intro stdin plan st hp hrun
    rcases main_any Env.big64 stdin plan hp with hdie | ⟨blobs, st0, st1, ks, i0, hb, hloop⟩
    · rw [hdie] at hrun
      cases hrun
    · obtain ⟨st', R, -, f2, -, -, -, -, -, -, -, -, f11⟩ :=
        main_finish Env.big64 stdin plan hp blobs st0 st1 ks i0 hb hloop
      rw [hrun] at f2
      cases f2
      simp only [hz] at f11
      rw [f11]
      rfl

/-- C5 (the code at the failing input): the stream `1 0 0 0 9 0 0 0 0 3` holds two complete
records. On the little-endian host with an 8-byte `unsigned long` that finds a 1 in the
fifth byte of `datlen`, the first length is taken to be `2 ^ 32 + 1`; the run returns from
the finalizer with `object_count` 0 and bytes 8..11 equal to `00 00 00 00`, not the
encoding `00 00 00 02` of 2. On the host that differs only in finding `datlen` zeroed the
same stream gives `object_count` 2 and bytes 8..11 equal to `00 00 00 02`. -/
theorem main_count_stale_datlen :
    (complete_records Endian.little [1, 0, 0, 0, 9, 0, 0, 0, 0, 3]).length = 2 ∧
    be32 2 = [0, 0, 0, 2] ∧
    ulong_load Env.stale_roomy ([1, 0, 0, 0] ++ (Env.stale_roomy.indeterminate 0).drop 4) =
      2 ^ 32 + 1 ∧
    (∃ st, main Env.stale_roomy
        { data := [1, 0, 0, 0, 9, 0, 0, 0, 0, 3], pos := 0, plan := [] } [] = Except.ok st ∧
      st.object_count = 0 ∧ (st.packfd.data.drop 8).take 4 = [0, 0, 0, 0]) ∧
    (∃ st, main Env.toy
        { data := [1, 0, 0, 0, 9, 0, 0, 0, 0, 3], pos := 0, plan := [] } [] = Except.ok st ∧
      st.object_count = 2 ∧ (st.packfd.data.drop 8).take 4 = [0, 0, 0, 2]) := by
  have hrec : complete_records Endian.little [1, 0, 0, 0, 9, 0, 0, 0, 0, 3] = [[9], []] := by
    simp [complete_records, host_u32]
  refine ⟨by rw [hrec]; rfl, rfl, ?_, ?_, ?_⟩
  · simp [ulong_load, Env.stale_roomy, Env.toy, range_eight]
  · obtain ⟨st, m, hc, -, hd⟩ := main_stale_roomy
    refine ⟨st, m, hc, ?_⟩
    rw [hd]
    rfl
  · obtain ⟨recs, st0, st1, ks, st, -, -, hr, -, -, -, -, m, -, hc, -, hb, -⟩ :=
      main_exact_host Env.toy datlen_exact_toy (fun _ => rfl) (Or.inl rfl)
        { data := [1, 0, 0, 0, 9, 0, 0, 0, 0, 3], pos := 0, plan := [] } []
        (List.not_mem_nil _) (List.not_mem_nil _)
    have hr' : recs = [[9], []] := by rw [hr]; exact hrec
    rw [hr'] at hc hb
    exact ⟨st, m, hc, hb⟩
/-- C7 (the code at the failing input): the stream `1 0 0 0 9 0 0 0 0 3` consists of the
complete records `[9]` and `[]` and one stray byte; its first four bytes hold the length 1
in little-endian order. On the little-endian host with an 8-byte `unsigned long` that finds
a 1 in the fifth byte of `datlen`, the length used is `2 ^ 32 + 1`. Where `malloc` has less
than 4 GiB to give, `xmalloc` ends the run with a fatal error before anything is imported;
where the allocation succeeds, the run returns having imported neither record: no digest
line, a count of 0 and an archive of 32 bytes. -/
theorem main_reads_stale_datlen :
    complete_records Endian.little [1, 0, 0, 0, 9, 0, 0, 0, 0, 3] = [[9], []] ∧
    host_u32 Endian.little [1, 0, 0, 0] = 1 ∧
    ulong_load Env.stale ([1, 0, 0, 0] ++ (Env.stale.indeterminate 0).drop 4) = 2 ^ 32 + 1 ∧
    Env.stale.xmalloc_ok (2 ^ 32 + 1) = false ∧
    main Env.stale { data := [1, 0, 0, 0, 9, 0, 0, 0, 0, 3], pos := 0, plan := [] } [] =
      Except.error (Fault.die "Out of memory, malloc failed") ∧
    (∃ st, main Env.stale_roomy
        { data := [1, 0, 0, 0, 9, 0, 0, 0, 0, 3], pos := 0, plan := [] } [] = Except.ok st ∧
      st.stdout = [] ∧ st.object_count = 0 ∧ st.packfd.data.length = 32) := by
  refine ⟨?_, ?_, ?_, ?_, ?_, ?_⟩
  · simp [complete_records, host_u32]
  · simp [host_u32]
  · simp [ulong_load, Env.stale, Env.toy, range_eight]
  · simp [Env.stale]
  · simp [main, init_pack_header, ywrite, ywrite_loop, xwrite, State.start, write_at, htonl,
      ulong_store, ulong_load, range_eight, main_loop, yread, yread_loop, xread, Env.stale,
      Env.toy]
  · obtain ⟨st, m, hc, hs, hd⟩ := main_stale_roomy
    refine ⟨st, m, hs, hc, ?_⟩
    rw [hd, List.length_append, Env.sha1_length]
    rfl

/-- C2 at the blob `aaaaa` imported twice. -/
theorem write_blob_record_witness :
    ∃ st0 st ks st', init_pack_header Env.toy (State.start [SysEvent.short 0]) = Except.ok st0 ∧
      import_blobs Env.toy st0 [[97, 97, 97, 97, 97]] = Except.ok (st, ks) ∧
      write_blob Env.toy st [97, 97, 97, 97, 97] 5 = Except.ok st' := by
  obtain ⟨st0, st, ks, st', a, b, c, -⟩ :=
    write_blob_record Env.toy [SysEvent.short 0] (by decide) [[97, 97, 97, 97, 97]]
      [97, 97, 97, 97, 97]
  exact ⟨st0, st, ks, st', a, b, c⟩

/-- C3 at five blobs. -/
theorem chain_depth_invariant_witness :
    ∃ st0 st ks, init_pack_header Env.toy (State.start []) = Except.ok st0 ∧
      import_blobs Env.toy st0 [[1], [1], [2], [2], [2]] = Except.ok (st, ks) ∧
      ks.length = 5 ∧ st.current_depth ≤ max_depth := by
  obtain ⟨st0, st, ks, a, b, c, -, d, -⟩ :=
    chain_depth_invariant Env.toy [] (by decide) [[1], [1], [2], [2], [2]]
  obtain ⟨st_m, e1, -, -, e4⟩ := d 5 (by decide)
  have hk : ks.take 5 = ks := List.take_of_length_le (by rw [c]; decide)
  rw [hk] at e1
  have e1' : import_blobs Env.toy st0 [[1], [1], [2], [2], [2]] = Except.ok (st_m, ks) := e1
  exact ⟨st0, st_m, ks, a, e1', c, e4⟩

/-- C6 at the blob `hi` as first blob. -/
theorem blob_digest_witness :
    ∃ (st0 st : State) (ks : List Nat) (st' : State) (ds : List Nat),
      init_pack_header Env.toy (State.start []) = Except.ok st0 ∧
      import_blobs Env.toy st0 [] = Except.ok (st, ks) ∧
      main_body Env.toy st [104, 105] 2 = Except.ok st' ∧
      Nat.ofDigits 10 ds.reverse = 2 ∧
      st'.lastsha1 =
        Env.toy.SHA1 ([98, 108, 111, 98, 32] ++ ds.map (· + 48) ++ [0] ++ [104, 105]) := by
  obtain ⟨st0, st, ks, st', ds, a, b, c, -, -, d3, -, -, d6, -⟩ :=
    blob_digest Env.toy [] (by decide) [] [104, 105]
  exact ⟨st0, st, ks, st', ds, a, b, c, d3, d6⟩


end FastImport
